import Mathlib

/-!
Shallow embedding of the SDK-updates endpoint reduction
(`src/sentry/api/endpoints/organization_sdk_updates.py`).

The Python code under scrutiny is:

```
sdks_by_project = [
    (project_id,
     [ { "name": sdk_name,
         "version": sorted(sdks, key=lambda v: [int(u) for u in v["sdk.version"].split(".")]
                   ).pop()["sdk.version"] }
       for sdk_name, sdks in groupby(sorted(sdks_used, key=by_sdk_name), key=by_sdk_name) ])
    for project_id, sdks_used in groupby(result["data"], key=by_project_id)
]
sdks_by_project = dict(sdks_by_project)
project_upgrade_suggestions = {
    project.id: map(lambda sdk: get_suggested_updates(...), sdks_by_project.get(project.id, []))
    for project in projects
}
```

Rows are dictionaries that may lack keys, so every field is an `Option`;
a computation that would raise in Python (missing key, `int()` on a
non-numeric segment, `.pop()` on an empty list) is `none`.
Strings are `List Char` (Python compares `str` by code point).
`sorted(key=f)` computes every key first (raising on the first failure),
then performs a stable ascending sort that only compares keys with `<`;
`itertools.groupby` groups contiguous runs of equal keys; `dict(pairs)`
keeps the last value bound to each key.
-/

/-- Python `s.split(".")` on the characters of `s` (empty segments kept,
`"".split(".") == [""]`). -/
def splitDot : List Char → List (List Char)
  | [] => [[]]
  | c :: cs =>
    match splitDot cs with
    | [] => [[c]]
    | seg :: segs => if c = '.' then [] :: seg :: segs else (c :: seg) :: segs

/-- Value of a nonempty all-ASCII-digit string, else `none`. -/
def digitsVal (s : List Char) : Option Nat :=
  if s ≠ [] ∧ s.all Char.isDigit then
    some (s.foldl (fun a c => 10 * a + (c.toNat - 48)) 0)
  else none

/-- Python `int(str)`: an optional sign followed by ASCII digits.
(`int`'s tolerance for surrounding whitespace and, on newer interpreters,
underscore digit separators is not modelled; no claim depends on it.)
A string it cannot convert raises `ValueError` in Python, here `none`. -/
def pyInt : List Char → Option Int
  | [] => none
  | c :: cs =>
    if c = '-' then (digitsVal cs).map (fun n => -(n : Int))
    else if c = '+' then (digitsVal cs).map (fun n => (n : Int))
    else (digitsVal (c :: cs)).map (fun n => (n : Int))

/-- `mapM` over `Option`, written out so it unfolds structurally: the image
of every element, or `none` as soon as one fails (a raised exception
aborts the whole Python comprehension). -/
def mapO (f : α → Option β) : List α → Option (List β)
  | [] => some []
  | x :: xs =>
    match f x, mapO f xs with
    | some y, some ys => some (y :: ys)
    | _, _ => none

/-- The sort key `[int(u) for u in v.split(".")]` of a raw version string. -/
def versionKey (v : List Char) : Option (List Int) := mapO pyInt (splitDot v)

/-- Python's `list.__lt__` / `str.__lt__`: lexicographic comparison by the
given element order, a strict prefix comparing less than the longer list. -/
def pyLt (ltE eqE : α → α → Bool) : List α → List α → Bool
  | _, [] => false
  | [], _ :: _ => true
  | a :: as, b :: bs => ltE a b || (eqE a b && pyLt ltE eqE as bs)

def intLtB (a b : Int) : Bool := decide (a < b)

def intEqB (a b : Int) : Bool := a == b

def charLtB (c d : Char) : Bool := decide (c < d)

def charEqB (c d : Char) : Bool := c == d

/-- Comparison of two version sort keys, as Python compares `list[int]`. -/
def verLt : List Int → List Int → Bool := pyLt intLtB intEqB

/-- The non-strict order induced by `verLt` (`a <= b` iff `not (b < a)`). -/
def verLe (a b : List Int) : Bool := !(verLt b a)

/-- Comparison of two SDK names, as Python compares `str` (by code point). -/
def nameLt : List Char → List Char → Bool := pyLt charLtB charEqB

/-- Stable insertion of `x` (earlier in the input than every element of the
list): `x` goes before the first element `y` with `le x y`. -/
def insertLe (le : α → α → Bool) (x : α) : List α → List α
  | [] => [x]
  | y :: ys => if le x y then x :: y :: ys else y :: insertLe le x ys

/-- Stable ascending sort (the behaviour of Python's `sorted` once every
key is computed). -/
def sortPy (le : α → α → Bool) : List α → List α
  | [] => []
  | x :: xs => insertLe le x (sortPy le xs)

/-- Key order lifted to decorated `(key, element)` pairs:
`p <= q` iff `not (key q < key p)`. -/
def pairLe (kLt : κ → κ → Bool) (p q : κ × α) : Bool := !(kLt q.1 p.1)

/-- Python `sorted(xs, key=key)`: decorate every element with its key
(raising — `none` — if any key computation fails), stable-sort by key,
undecorate. -/
def sortByKey (key : α → Option κ) (kLt : κ → κ → Bool) (xs : List α) :
    Option (List α) :=
  (mapO (fun x => (key x).map (fun k => (k, x))) xs).map
    (fun dec => (sortPy (pairLe kLt) dec).map Prod.snd)

/-- One step of `groupRuns`: prepend the pair `(k, x)` to an already
grouped tail, merging into the first group when the key matches. -/
def groupCons [BEq κ] (k : κ) (x : α) : List (κ × List α) → List (κ × List α)
  | [] => [(k, [x])]
  | (k', xs) :: gs =>
    if k == k' then (k, x :: xs) :: gs else (k, [x]) :: (k', xs) :: gs

/-- `itertools.groupby` on an already key-decorated list: contiguous runs
of equal keys become one group each. -/
def groupRuns [BEq κ] : List (κ × α) → List (κ × List α)
  | [] => []
  | (k, x) :: rest => groupCons k x (groupRuns rest)

/-- `itertools.groupby(xs, key=key)` with the key evaluated on each element
(a raised key error makes the whole traversal fail). -/
def groupByRuns [BEq κ] (key : α → Option κ) (xs : List α) :
    Option (List (κ × List α)) :=
  (mapO (fun x => (key x).map (fun k => (k, x))) xs).map groupRuns

/-- One step of `lookupLast`: a binding found further right wins over the
head pair. -/
def lookStep [BEq κ] (k : κ) (p : κ × β) : Option β → Option β
  | some v => some v
  | none => if p.1 == k then some p.2 else none

/-- `dict(pairs)[k]` as an optional lookup: the value of the *last* pair
bound to `k`, as Python's `dict` constructor keeps the last binding. -/
def lookupLast [BEq κ] : List (κ × β) → κ → Option β
  | [], _ => none
  | p :: ps, k => lookStep k p (lookupLast ps k)

/-- One row of `result["data"]`: a dictionary with the selected columns
`project`, `sdk.name`, `sdk.version`, `last_seen()`.  Each field is
optional because a malformed row may lack the key. -/
structure Row where
  projectId : Option Nat
  sdkName : Option (List Char)
  sdkVersion : Option (List Char)
  lastSeen : Option Nat
deriving DecidableEq

/-- `def by_sdk_name(sdk): return sdk["sdk.name"]`. -/
def by_sdk_name (r : Row) : Option (List Char) := r.sdkName

/-- `def by_project_id(sdk): return sdk["project.id"]`. -/
def by_project_id (r : Row) : Option Nat := r.projectId

/-- One entry `{"name": ..., "version": ...}` of the per-project SDK list. -/
structure SdkEntry where
  name : List Char
  version : List Char
deriving DecidableEq

/-- The version sort key of a row: `[int(u) for u in v["sdk.version"].split(".")]`. -/
def rowVersionKey (r : Row) : Option (List Int) := r.sdkVersion.bind versionKey

/-- The dictionary built for one `sdk_name` group:
`{"name": sdk_name, "version": sorted(sdks, key=...).pop()["sdk.version"]}`. -/
def latestEntry (nm : List Char) (sdks : List Row) : Option SdkEntry :=
  (sortByKey rowVersionKey verLt sdks).bind (fun sorted2 =>
    sorted2.getLast?.bind (fun last =>
      last.sdkVersion.map (fun v => ⟨nm, v⟩)))

/-- The inner list comprehension over
`groupby(sorted(sdks_used, key=by_sdk_name), key=by_sdk_name)`. -/
def sdkListFor (sdksUsed : List Row) : Option (List SdkEntry) :=
  (sortByKey by_sdk_name nameLt sdksUsed).bind (fun sorted1 =>
    (groupByRuns by_sdk_name sorted1).bind (fun groups =>
      mapO (fun g => latestEntry g.1 g.2) groups))

/-- The full `sdks_by_project` association list (before `dict(...)` is
applied; `dict` lookup is `lookupLast`). -/
def sdksByProjectList (data : List Row) : Option (List (Nat × List SdkEntry)) :=
  (groupByRuns by_project_id data).bind (fun pgroups =>
    mapO (fun g => (sdkListFor g.2).map (fun l => (g.1, l))) pgroups)

/-- `project_upgrade_suggestions`: for every requested project id, map
`get_suggested_updates` (abstract here — `sentry.sdk_updates` is an external
collaborator) over `sdks_by_project.get(project.id, [])`. -/
def project_upgrade_suggestions {σ : Type} (suggest : SdkEntry → σ)
    (projects : List Nat) (data : List Row) : Option (List (Nat × List σ)) :=
  (sdksByProjectList data).map (fun sbp =>
    projects.map (fun pid => (pid, ((lookupLast sbp pid).getD []).map suggest)))

/-- The rows of one `(project.id, sdk.name)` group of the input, in input
order. -/
def groupRows (data : List Row) (p : Nat) (nm : List Char) : List Row :=
  data.filter (fun r => r.projectId == some p && r.sdkName == some nm)

/-- Convenience constructor for a fully-populated row. -/
def mkRow (p : Nat) (nm v : List Char) (t : Nat) : Row :=
  ⟨some p, some nm, some v, some t⟩

/-- Replace the `last_seen` field of a row, keeping every other field: the
reduction never reads `last_seen`, which the invariance theorem below makes
precise. -/
def setLastSeen (t : Row → Option Nat) (r : Row) : Row :=
  ⟨r.projectId, r.sdkName, r.sdkVersion, t r⟩

/-- Zero-pad a key to length `n` (`n` never shorter in our uses). -/
def padTo (a : List Int) (n : Nat) : List Int :=
  a ++ List.replicate (n - a.length) 0

/-- Modelled from the spec: "compares component-wise; a shorter sequence is
padded with zeros to the longer length before comparison" — the strict part
of that comparison. -/
def specPadLt (a b : List Int) : Bool :=
  verLt (padTo a (max a.length b.length)) (padTo b (max a.length b.length))

/-- Modelled from the spec: equality under the spec's zero-padded
comparison (so `2.1 == 2.1.0`). -/
def specPadEq (a b : List Int) : Bool :=
  padTo a (max a.length b.length) == padTo b (max a.length b.length)

/-- All dot-separated segments of a version string are nonempty and
all-ASCII-digits (the claims' notion of a well-formed numeric version). -/
def numericSegs (v : List Char) : Bool :=
  (splitDot v).all (fun s => !s.isEmpty && s.all Char.isDigit)

/-! ### Lemmas about `mapO` -/

theorem mapO_some_forall2 {f : α → Option β} :
    ∀ {l : List α} {out : List β}, mapO f l = some out →
      List.Forall₂ (fun a b => f a = some b) l out := by
  intro l
  induction l with
  | nil =>
    intro out h
    simp only [mapO, Option.some.injEq] at h
    subst h
    exact List.Forall₂.nil
  | cons x xs ih =>
    intro out h
    cases hfx : f x with
    | none => simp [mapO, hfx] at h
    | some y =>
      cases hm : mapO f xs with
      | none => simp [mapO, hfx, hm] at h
      | some ys =>
        simp only [mapO, hfx, hm, Option.some.injEq] at h
        subst h
        exact List.Forall₂.cons hfx (ih hm)

theorem mapO_eq_none_of_mem {f : α → Option β} {l : List α} {x : α}
    (hx : x ∈ l) (hf : f x = none) : mapO f l = none := by
  induction l with
  | nil => cases hx
  | cons a as ih =>
    rcases List.mem_cons.mp hx with h | h
    · subst h
      simp [mapO, hf]
    · cases hfa : f a <;> simp [mapO, hfa, ih h]

theorem mapO_eq_some_of_forall {f : α → Option β} {g : α → β} :
    ∀ {l : List α}, (∀ x ∈ l, f x = some (g x)) → mapO f l = some (l.map g) := by
  intro l
  induction l with
  | nil => intro _; rfl
  | cons x xs ih =>
    intro h
    have hx := h x (List.mem_cons_self x xs)
    have hxs := ih (fun y hy => h y (List.mem_cons_of_mem x hy))
    simp [mapO, hx, hxs]

theorem mapO_map {f : β → Option γ} {g : α → β} :
    ∀ {l : List α}, mapO f (l.map g) = mapO (fun x => f (g x)) l := by
  intro l
  induction l with
  | nil => rfl
  | cons x xs ih => simp [mapO, ih]

theorem mapO_map_post {f : α → Option β} {f' : α → Option γ} {h : β → γ}
    (hpt : ∀ x, f' x = (f x).map h) :
    ∀ {l : List α}, mapO f' l = (mapO f l).map (List.map h) := by
  intro l
  induction l with
  | nil => rfl
  | cons x xs ih =>
    cases hfx : f x with
    | none => simp [mapO, hpt x, hfx, ih]
    | some y =>
      cases hm : mapO f xs with
      | none => simp [mapO, hpt x, hfx, hm, ih]
      | some ys => simp [mapO, hpt x, hfx, hm, ih]

theorem mapO_congr {f f' : α → Option β} :
    ∀ {l : List α}, (∀ x ∈ l, f x = f' x) → mapO f l = mapO f' l := by
  intro l
  induction l with
  | nil => intro _; rfl
  | cons x xs ih =>
    intro h
    have hx := h x (List.mem_cons_self x xs)
    have hxs := ih (fun y hy => h y (List.mem_cons_of_mem x hy))
    simp [mapO, hx, hxs]

/-! ### `pyLt` is a strict total order when the element order is one -/

section PyLtFacts

variable {α : Type _} {ltE eqE : α → α → Bool}

theorem pyLt_cons {a b : α} {as bs : List α} :
    pyLt ltE eqE (a :: as) (b :: bs) =
      (ltE a b || (eqE a b && pyLt ltE eqE as bs)) := rfl

theorem pyLt_irrefl (hirr : ∀ a, ltE a a = false) :
    ∀ l : List α, pyLt ltE eqE l l = false := by
  intro l
  induction l with
  | nil => rfl
  | cons a as ih =>
    simp [pyLt_cons, hirr a, ih]

theorem pyLt_trans (heq : ∀ a b, eqE a b = true ↔ a = b)
    (htr : ∀ a b c, ltE a b = true → ltE b c = true → ltE a c = true) :
    ∀ l₁ l₂ l₃ : List α, pyLt ltE eqE l₁ l₂ = true → pyLt ltE eqE l₂ l₃ = true →
      pyLt ltE eqE l₁ l₃ = true := by
  intro l₁
  induction l₁ with
  | nil =>
    intro l₂ l₃ h12 h23
    cases l₂ with
    | nil => exact h23
    | cons b bs =>
      cases l₃ with
      | nil => simp [pyLt] at h23
      | cons c cs => rfl
  | cons a as ih =>
    intro l₂ l₃ h12 h23
    cases l₂ with
    | nil => simp [pyLt] at h12
    | cons b bs =>
      cases l₃ with
      | nil => simp [pyLt] at h23
      | cons c cs =>
        simp only [pyLt_cons, Bool.or_eq_true, Bool.and_eq_true] at h12 h23 ⊢
        rcases h12 with hab | ⟨hab, h12'⟩
        · rcases h23 with hbc | ⟨hbc, h23'⟩
          · exact Or.inl (htr a b c hab hbc)
          · rw [heq] at hbc
            subst hbc
            exact Or.inl hab
        · rw [heq] at hab
          subst hab
          rcases h23 with hbc | ⟨hbc, h23'⟩
          · exact Or.inl hbc
          · rw [heq] at hbc
            subst hbc
            exact Or.inr ⟨(heq a a).mpr rfl, ih bs cs h12' h23'⟩

theorem pyLt_asym (heq : ∀ a b, eqE a b = true ↔ a = b)
    (hirr : ∀ a, ltE a a = false)
    (htr : ∀ a b c, ltE a b = true → ltE b c = true → ltE a c = true)
    {l₁ l₂ : List α} (h : pyLt ltE eqE l₁ l₂ = true) :
    pyLt ltE eqE l₂ l₁ = false := by
  by_contra hc
  have h21 : pyLt ltE eqE l₂ l₁ = true := by
    cases hv : pyLt ltE eqE l₂ l₁
    · exact absurd hv hc
    · rfl
  have := pyLt_trans heq htr l₁ l₂ l₁ h h21
  rw [pyLt_irrefl hirr] at this
  exact Bool.false_ne_true this

theorem pyLt_connex (heq : ∀ a b, eqE a b = true ↔ a = b)
    (hcon : ∀ a b, a ≠ b → ltE a b = true ∨ ltE b a = true) :
    ∀ l₁ l₂ : List α, l₁ ≠ l₂ →
      pyLt ltE eqE l₁ l₂ = true ∨ pyLt ltE eqE l₂ l₁ = true := by
  intro l₁
  induction l₁ with
  | nil =>
    intro l₂ hne
    cases l₂ with
    | nil => exact absurd rfl hne
    | cons b bs => exact Or.inl rfl
  | cons a as ih =>
    intro l₂ hne
    cases l₂ with
    | nil => exact Or.inr rfl
    | cons b bs =>
      by_cases hab : a = b
      · subst hab
        have hne' : as ≠ bs := fun h => hne (by rw [h])
        rcases ih bs hne' with h | h
        · exact Or.inl (by simp [pyLt_cons, (heq a a).mpr rfl, h])
        · exact Or.inr (by simp [pyLt_cons, (heq a a).mpr rfl, h])
      · rcases hcon a b hab with h | h
        · exact Or.inl (by simp [pyLt_cons, h])
        · exact Or.inr (by simp [pyLt_cons, h])

end PyLtFacts

/-! ### The concrete orders: `verLt` on version keys, `nameLt` on names -/

theorem intEqB_iff {a b : Int} : intEqB a b = true ↔ a = b := beq_iff_eq

theorem intLtB_irrefl (a : Int) : intLtB a a = false := by simp [intLtB]

theorem intLtB_trans {a b c : Int} (h1 : intLtB a b = true) (h2 : intLtB b c = true) :
    intLtB a c = true := by
  simp only [intLtB, decide_eq_true_eq] at *
  omega

theorem intLtB_connex {a b : Int} (h : a ≠ b) :
    intLtB a b = true ∨ intLtB b a = true := by
  simp only [intLtB, decide_eq_true_eq]
  omega

theorem charEqB_iff {a b : Char} : charEqB a b = true ↔ a = b := beq_iff_eq

theorem charLtB_irrefl (a : Char) : charLtB a a = false := by
  simp [charLtB]

theorem charLtB_trans {a b c : Char} (h1 : charLtB a b = true) (h2 : charLtB b c = true) :
    charLtB a c = true := by
  simp only [charLtB, decide_eq_true_eq] at *
  exact lt_trans h1 h2

theorem charLtB_connex {a b : Char} (h : a ≠ b) :
    charLtB a b = true ∨ charLtB b a = true := by
  simp only [charLtB, decide_eq_true_eq]
  exact lt_or_gt_of_ne h

theorem verLt_irrefl (k : List Int) : verLt k k = false :=
  pyLt_irrefl intLtB_irrefl k

theorem verLt_trans {a b c : List Int} (h1 : verLt a b = true) (h2 : verLt b c = true) :
    verLt a c = true :=
  @pyLt_trans Int intLtB intEqB (fun _ _ => intEqB_iff)
    (fun _ _ _ ha hb => intLtB_trans ha hb) a b c h1 h2

theorem verLt_asym {a b : List Int} (h : verLt a b = true) : verLt b a = false :=
  @pyLt_asym Int intLtB intEqB (fun _ _ => intEqB_iff) intLtB_irrefl
    (fun _ _ _ ha hb => intLtB_trans ha hb) a b h

theorem verLt_connex {a b : List Int} (h : a ≠ b) :
    verLt a b = true ∨ verLt b a = true :=
  @pyLt_connex Int intLtB intEqB (fun _ _ => intEqB_iff)
    (fun _ _ hne => intLtB_connex hne) a b h

theorem nameLt_irrefl (k : List Char) : nameLt k k = false :=
  pyLt_irrefl charLtB_irrefl k

theorem nameLt_trans {a b c : List Char} (h1 : nameLt a b = true) (h2 : nameLt b c = true) :
    nameLt a c = true :=
  @pyLt_trans Char charLtB charEqB (fun _ _ => charEqB_iff)
    (fun _ _ _ ha hb => charLtB_trans ha hb) a b c h1 h2

theorem nameLt_asym {a b : List Char} (h : nameLt a b = true) : nameLt b a = false :=
  @pyLt_asym Char charLtB charEqB (fun _ _ => charEqB_iff) charLtB_irrefl
    (fun _ _ _ ha hb => charLtB_trans ha hb) a b h

theorem nameLt_connex {a b : List Char} (h : a ≠ b) :
    nameLt a b = true ∨ nameLt b a = true :=
  @pyLt_connex Char charLtB charEqB (fun _ _ => charEqB_iff)
    (fun _ _ hne => charLtB_connex hne) a b h

/-! ### `pairLe` facts, generic over a strict total order on keys -/

section PairLeFacts

variable {κ α : Type _} {kLt : κ → κ → Bool}

/-- A bundled strict total order on keys. -/
structure StrictKeyOrder (kLt : κ → κ → Bool) : Prop where
  irrefl : ∀ a, kLt a a = false
  trans : ∀ {a b c}, kLt a b = true → kLt b c = true → kLt a c = true
  asym : ∀ {a b}, kLt a b = true → kLt b a = false
  connex : ∀ {a b}, a ≠ b → kLt a b = true ∨ kLt b a = true

theorem verLt_sko : StrictKeyOrder verLt :=
  ⟨verLt_irrefl, verLt_trans, verLt_asym, verLt_connex⟩

theorem nameLt_sko : StrictKeyOrder nameLt :=
  ⟨nameLt_irrefl, nameLt_trans, nameLt_asym, nameLt_connex⟩

theorem kLt_of_not_not (hk : StrictKeyOrder kLt) {a b : κ}
    (h1 : kLt a b = false) (h2 : a ≠ b) : kLt b a = true := by
  rcases hk.connex h2 with h | h
  · exact absurd h (by simp [h1])
  · exact h

theorem pairLe_total (hk : StrictKeyOrder kLt) (p q : κ × α) :
    pairLe kLt p q = true ∨ pairLe kLt q p = true := by
  by_cases h : kLt q.1 p.1 = true
  · right
    simp [pairLe, hk.asym h]
  · left
    simp [pairLe]
    cases hv : kLt q.1 p.1
    · rfl
    · exact absurd hv h

theorem pairLe_trans (hk : StrictKeyOrder kLt) (p q r : κ × α)
    (h1 : pairLe kLt p q = true) (h2 : pairLe kLt q r = true) :
    pairLe kLt p r = true := by
  simp only [pairLe, Bool.not_eq_true'] at h1 h2 ⊢
  by_contra hc
  have hrp : kLt r.1 p.1 = true := by
    cases hv : kLt r.1 p.1
    · exact absurd hv hc
    · rfl
  by_cases hpq : q.1 = p.1
  · rw [hpq] at h2
    rw [h2] at hrp
    exact Bool.false_ne_true hrp
  · by_cases hqr : r.1 = q.1
    · rw [← hqr] at h1
      rw [h1] at hrp
      exact Bool.false_ne_true hrp
    · have hpq' : kLt p.1 q.1 = true := kLt_of_not_not hk h1 hpq
      have hqr' : kLt q.1 r.1 = true := kLt_of_not_not hk h2 hqr
      have h3 := hk.trans hpq' hqr'
      rw [hk.asym h3] at hrp
      exact Bool.false_ne_true hrp

end PairLeFacts

/-! ### Lemmas about the stable sort `sortPy` -/

section SortFacts

variable {α : Type _} {le : α → α → Bool}

theorem insertLe_ne_nil (x : α) : ∀ l : List α, insertLe le x l ≠ []
  | [] => by simp [insertLe]
  | y :: ys => by
    simp only [insertLe]
    split <;> simp

theorem insertLe_perm (x : α) : ∀ l : List α, (insertLe le x l).Perm (x :: l)
  | [] => List.Perm.refl _
  | y :: ys => by
    simp only [insertLe]
    split
    · exact List.Perm.refl _
    · exact ((insertLe_perm x ys).cons y).trans (List.Perm.swap x y ys)

theorem sortPy_perm : ∀ l : List α, (sortPy le l).Perm l
  | [] => List.Perm.refl _
  | x :: xs => (insertLe_perm x (sortPy le xs)).trans ((sortPy_perm xs).cons x)

theorem mem_sortPy {a : α} {l : List α} : a ∈ sortPy le l ↔ a ∈ l :=
  (sortPy_perm l).mem_iff

theorem mem_insertLe {a x : α} {l : List α} :
    a ∈ insertLe le x l ↔ a = x ∨ a ∈ l := by
  rw [(insertLe_perm x l).mem_iff, List.mem_cons]

theorem getLast?_cons_of_ne_nil {y : α} {l : List α} (h : l ≠ []) :
    (y :: l).getLast? = l.getLast? := by
  cases l with
  | nil => exact absurd rfl h
  | cons z zs => exact List.getLast?_cons_cons

theorem getLast?_insertLe (x : α) :
    ∀ l : List α, (insertLe le x l).getLast? =
      if l.any (fun y => le x y) then l.getLast? else some x
  | [] => by simp [insertLe]
  | y :: ys => by
    simp only [insertLe]
    by_cases hxy : le x y = true
    · rw [if_pos hxy]
      have : (y :: ys).any (fun z => le x z) = true := by
        simp [List.any_cons, hxy]
      rw [if_pos this, List.getLast?_cons_cons]
    · have hxy' : le x y = false := by
        cases hv : le x y
        · rfl
        · exact absurd hv hxy
      rw [if_neg hxy]
      rw [getLast?_cons_of_ne_nil (insertLe_ne_nil x ys)]
      rw [getLast?_insertLe x ys]
      have hany : (y :: ys).any (fun z => le x z) = ys.any (fun z => le x z) := by
        simp [List.any_cons, hxy']
      rw [hany]
      by_cases h2 : ys.any (fun z => le x z) = true
      · rw [if_pos h2, if_pos h2]
        have hne : ys ≠ [] := by
          rintro rfl
          simp at h2
        rw [getLast?_cons_of_ne_nil hne]
      · have h2' : ys.any (fun z => le x z) = false := by
          cases hv : ys.any (fun z => le x z)
          · rfl
          · exact absurd hv h2
        rw [h2', if_neg (by simp), if_neg (by simp)]

theorem sortPy_max (htot : ∀ a b : α, le a b = true ∨ le b a = true)
    (htrans : ∀ a b c : α, le a b = true → le b c = true → le a c = true) :
    ∀ l : List α, l ≠ [] →
      ∃ m, (sortPy le l).getLast? = some m ∧ m ∈ l ∧ ∀ y ∈ l, le y m = true := by
  intro l
  induction l with
  | nil => intro h; exact absurd rfl h
  | cons x xs ih =>
    intro _
    rcases eq_or_ne xs [] with rfl | hxs
    · refine ⟨x, ?_, List.mem_cons_self x [], ?_⟩
      · simp [sortPy, insertLe]
      · intro y hy
        rcases List.mem_cons.mp hy with rfl | hy
        · rcases htot y y with h | h <;> exact h
        · cases hy
    · obtain ⟨m, hm, hmem, hmax⟩ := ih hxs
      have hrw : sortPy le (x :: xs) = insertLe le x (sortPy le xs) := rfl
      rw [hrw, getLast?_insertLe x (sortPy le xs)]
      by_cases hany : (sortPy le xs).any (fun y => le x y) = true
      · rw [if_pos hany, hm]
        refine ⟨m, rfl, List.mem_cons_of_mem x hmem, ?_⟩
        intro y hy
        rcases List.mem_cons.mp hy with rfl | hy
        · obtain ⟨b, hb, hxb⟩ := List.any_eq_true.mp hany
          exact htrans _ b m hxb (hmax b (mem_sortPy.mp hb))
        · exact hmax y hy
      · rw [if_neg hany]
        refine ⟨x, rfl, List.mem_cons_self x xs, ?_⟩
        intro y hy
        rcases List.mem_cons.mp hy with rfl | hy
        · rcases htot y y with h | h <;> exact h
        · have hxy : ¬ le x y = true := by
            intro hxy
            exact hany (List.any_eq_true.mpr ⟨y, mem_sortPy.mpr hy, hxy⟩)
          rcases htot x y with h | h
          · exact absurd h hxy
          · exact h

theorem sortPy_last_tied
    (htot : ∀ a b : α, le a b = true ∨ le b a = true) :
    ∀ {l : List α} {m : α}, (sortPy le l).getLast? = some m →
      (l.filter (fun y => le m y)).getLast? = some m := by
  intro l
  induction l with
  | nil => intro m h; simp [sortPy] at h
  | cons x xs ih =>
    intro m h
    have hrw : sortPy le (x :: xs) = insertLe le x (sortPy le xs) := rfl
    rw [hrw, getLast?_insertLe x (sortPy le xs)] at h
    by_cases hany : (sortPy le xs).any (fun y => le x y) = true
    · rw [if_pos hany] at h
      have ihm := ih h
      have hne : xs.filter (fun y => le m y) ≠ [] := by
        intro hnil
        rw [hnil] at ihm
        simp at ihm
      rw [List.filter_cons]
      by_cases hmx : le m x = true
      · rw [if_pos hmx, getLast?_cons_of_ne_nil hne]
        exact ihm
      · rw [if_neg hmx]
        exact ihm
    · rw [if_neg hany, Option.some.injEq] at h
      subst h
      have hmm : le x x = true := by rcases htot x x with h | h <;> exact h
      rw [List.filter_cons, if_pos hmm]
      have hnil : xs.filter (fun y => le x y) = [] := by
        rw [List.filter_eq_nil_iff]
        intro a ha hma
        exact hany (List.any_eq_true.mpr ⟨a, mem_sortPy.mpr ha, hma⟩)
      rw [hnil]
      rfl

theorem filter_insertLe (p : α → Bool)
    (hcomp : ∀ a b : α, p a = true → le a b = false → p b = false) (x : α) :
    ∀ l : List α, (insertLe le x l).filter p =
      if p x then x :: l.filter p else l.filter p
  | [] => by simp [insertLe, List.filter_cons]
  | y :: ys => by
    simp only [insertLe]
    by_cases hxy : le x y = true
    · rw [if_pos hxy, List.filter_cons]
    · have hxy' : le x y = false := by
        cases hv : le x y
        · rfl
        · exact absurd hv hxy
      rw [if_neg hxy, List.filter_cons, List.filter_cons]
      by_cases hpy : p y = true
      · by_cases hpx : p x = true
        · have := hcomp x y hpx hxy'
          rw [this] at hpy
          exact absurd hpy (by simp)
        · have hpx' : p x = false := by
            cases hv : p x
            · rfl
            · exact absurd hv hpx
          rw [if_pos hpy, if_neg hpx, filter_insertLe p hcomp x ys,
            if_neg hpx, if_pos hpy]
      · rw [if_neg hpy, filter_insertLe p hcomp x ys]
        by_cases hpx : p x = true
        · rw [if_pos hpx, if_pos hpx, if_neg hpy]
        · rw [if_neg hpx, if_neg hpx, if_neg hpy]

theorem sortPy_filter (p : α → Bool)
    (hcomp : ∀ a b : α, p a = true → le a b = false → p b = false) :
    ∀ l : List α, (sortPy le l).filter p = l.filter p
  | [] => rfl
  | x :: xs => by
    have hrw : sortPy le (x :: xs) = insertLe le x (sortPy le xs) := rfl
    rw [hrw, filter_insertLe p hcomp x (sortPy le xs),
      sortPy_filter p hcomp xs, List.filter_cons]

theorem insertLe_pairwise
    (htot : ∀ a b : α, le a b = true ∨ le b a = true)
    (htrans : ∀ a b c : α, le a b = true → le b c = true → le a c = true)
    (x : α) :
    ∀ {l : List α}, l.Pairwise (fun a b => le a b = true) →
      (insertLe le x l).Pairwise (fun a b => le a b = true) := by
  intro l
  induction l with
  | nil => intro _; simp [insertLe]
  | cons y ys ih =>
    intro hp
    rcases List.pairwise_cons.mp hp with ⟨hy, hys⟩
    simp only [insertLe]
    by_cases hxy : le x y = true
    · rw [if_pos hxy]
      refine List.pairwise_cons.mpr ⟨?_, hp⟩
      intro z hz
      rcases List.mem_cons.mp hz with rfl | hz
      · exact hxy
      · exact htrans x y z hxy (hy z hz)
    · rw [if_neg hxy]
      refine List.pairwise_cons.mpr ⟨?_, ih hys⟩
      intro z hz
      rcases mem_insertLe.mp hz with hzx | hz
      · rw [hzx]
        rcases htot x y with h | h
        · exact absurd h hxy
        · exact h
      · exact hy z hz

theorem sortPy_pairwise
    (htot : ∀ a b : α, le a b = true ∨ le b a = true)
    (htrans : ∀ a b c : α, le a b = true → le b c = true → le a c = true) :
    ∀ l : List α, (sortPy le l).Pairwise (fun a b => le a b = true)
  | [] => List.Pairwise.nil
  | x :: xs => insertLe_pairwise htot htrans x (sortPy_pairwise htot htrans xs)

theorem insertLe_map {β : Type _} {le' : β → β → Bool} (h : α → β)
    (hc : ∀ a b : α, le' (h a) (h b) = le a b) (x : α) :
    ∀ l : List α, insertLe le' (h x) (l.map h) = (insertLe le x l).map h
  | [] => rfl
  | y :: ys => by
    simp only [List.map_cons, insertLe, hc x y]
    by_cases hxy : le x y = true
    · rw [if_pos hxy, if_pos hxy, List.map_cons, List.map_cons]
    · rw [if_neg hxy, if_neg hxy, List.map_cons, insertLe_map h hc x ys]

theorem sortPy_map {β : Type _} {le' : β → β → Bool} (h : α → β)
    (hc : ∀ a b : α, le' (h a) (h b) = le a b) :
    ∀ l : List α, sortPy le' (l.map h) = (sortPy le l).map h
  | [] => rfl
  | x :: xs => by
    have hrw : sortPy le (x :: xs) = insertLe le x (sortPy le xs) := rfl
    have hrw' : sortPy le' (h x :: (xs.map h)) =
        insertLe le' (h x) (sortPy le' (xs.map h)) := rfl
    rw [List.map_cons, hrw', sortPy_map h hc xs, insertLe_map h hc, hrw]

end SortFacts

/-! ### Lemmas about `groupRuns` (contiguous grouping) -/

section GroupFacts

variable {κ α : Type _} [BEq κ] [LawfulBEq κ]

theorem groupRuns_cons {k : κ} {x : α} {rest : List (κ × α)} :
    groupRuns ((k, x) :: rest) = groupCons k x (groupRuns rest) := rfl

theorem groupRuns_nil_iff {l : List (κ × α)} : groupRuns l = [] ↔ l = [] := by
  constructor
  · intro h
    cases l with
    | nil => rfl
    | cons p rest =>
      obtain ⟨k, x⟩ := p
      rw [groupRuns_cons] at h
      rcases hR : groupRuns rest with _ | ⟨⟨k', xs⟩, gs⟩ <;> rw [hR] at h
      · simp [groupCons] at h
      · by_cases hk : (k == k') = true <;> simp [groupCons, hk] at h
  · rintro rfl
    rfl

theorem groupRuns_key_mem {l : List (κ × α)} {k : κ} {g : List α}
    (h : (k, g) ∈ groupRuns l) : ∃ x, (k, x) ∈ l := by
  induction l generalizing k g with
  | nil => cases h
  | cons p rest ih =>
    obtain ⟨k0, x⟩ := p
    rw [groupRuns_cons] at h
    rcases hR : groupRuns rest with _ | ⟨⟨k', xs⟩, gs⟩ <;> rw [hR] at h
    · simp only [groupCons, List.mem_singleton, Prod.mk.injEq] at h
      exact ⟨x, by rw [h.1]; exact List.mem_cons_self _ _⟩
    · simp only [groupCons] at h
      by_cases hk : (k0 == k') = true
      · rw [if_pos hk] at h
        rcases List.mem_cons.mp h with h | h
        · simp only [Prod.mk.injEq] at h
          exact ⟨x, by rw [h.1]; exact List.mem_cons_self _ _⟩
        · obtain ⟨y, hy⟩ := ih (by rw [hR]; exact List.mem_cons_of_mem _ h)
          exact ⟨y, List.mem_cons_of_mem _ hy⟩
      · rw [if_neg hk] at h
        rcases List.mem_cons.mp h with h | h
        · simp only [Prod.mk.injEq] at h
          exact ⟨x, by rw [h.1]; exact List.mem_cons_self _ _⟩
        · obtain ⟨y, hy⟩ := ih (by rw [hR]; exact h)
          exact ⟨y, List.mem_cons_of_mem _ hy⟩

theorem groupRuns_mem_content {l : List (κ × α)} {pr : κ × α}
    (h : pr ∈ l) : ∃ g, (pr.1, g) ∈ groupRuns l ∧ pr.2 ∈ g := by
  induction l with
  | nil => cases h
  | cons p rest ih =>
    obtain ⟨k0, x⟩ := p
    rw [groupRuns_cons]
    rcases List.mem_cons.mp h with h | h
    · subst h
      rcases hR : groupRuns rest with _ | ⟨⟨k', xs⟩, gs⟩
      · exact ⟨[x], List.mem_singleton.mpr rfl, List.mem_singleton.mpr rfl⟩
      · simp only [groupCons]
        by_cases hk : (k0 == k') = true
        · rw [if_pos hk]
          exact ⟨x :: xs, List.mem_cons_self _ _, List.mem_cons_self _ _⟩
        · rw [if_neg hk]
          exact ⟨[x], List.mem_cons_self _ _, List.mem_singleton.mpr rfl⟩
    · obtain ⟨g, hg, hmem⟩ := ih h
      rcases hR : groupRuns rest with _ | ⟨⟨k', xs⟩, gs⟩ <;> rw [hR] at hg
      · cases hg
      · simp only [groupCons]
        by_cases hk : (k0 == k') = true
        · rw [if_pos hk]
          rcases List.mem_cons.mp hg with hg | hg
          · simp only [Prod.mk.injEq] at hg
            refine ⟨x :: xs, ?_, ?_⟩
            · rw [hg.1, ← beq_iff_eq.mp hk]
              exact List.mem_cons_self _ _
            · exact List.mem_cons_of_mem x (hg.2 ▸ hmem)
          · exact ⟨g, List.mem_cons_of_mem _ hg, hmem⟩
        · rw [if_neg hk]
          exact ⟨g, List.mem_cons_of_mem _ hg, hmem⟩

theorem groupRuns_covers {l : List (κ × α)} {pr : κ × α} (h : pr ∈ l) :
    pr.1 ∈ (groupRuns l).map Prod.fst := by
  obtain ⟨g, hg, _⟩ := groupRuns_mem_content h
  exact List.mem_map.mpr ⟨(pr.1, g), hg, rfl⟩

theorem groupRuns_keys_pairwise {kLt : κ → κ → Bool} (hk : StrictKeyOrder kLt)
    {l : List (κ × α)}
    (hs : l.Pairwise (fun p q => pairLe kLt p q = true)) :
    ((groupRuns l).map Prod.fst).Pairwise (fun a b => kLt a b = true) := by
  induction l with
  | nil => exact List.Pairwise.nil
  | cons p rest ih =>
    obtain ⟨k0, x⟩ := p
    rcases List.pairwise_cons.mp hs with ⟨hhead, hrest⟩
    have ihp := ih hrest
    rw [groupRuns_cons]
    rcases hR : groupRuns rest with _ | ⟨⟨k', xs⟩, gs⟩
    · simp [groupCons]
    · rw [hR] at ihp
      simp only [groupCons]
      have hnotlt : ∀ kk ∈ (((k', xs) :: gs).map Prod.fst), kLt kk k0 = false := by
        intro kk hkk
        obtain ⟨⟨kk', g⟩, hgmem, hfst⟩ := List.mem_map.mp hkk
        obtain ⟨v, hv⟩ := groupRuns_key_mem (show ((kk', g) ∈ groupRuns rest) by rw [hR]; exact hgmem)
        have hle := hhead (kk', v) hv
        have hle' : kLt kk' k0 = false := by
          simpa [pairLe, Bool.not_eq_true'] using hle
        rw [← hfst]
        exact hle'
      by_cases hkk : (k0 == k') = true
      · rw [if_pos hkk]
        have hk0 : k0 = k' := beq_iff_eq.mp hkk
        rw [List.map_cons]
        rw [List.map_cons] at ihp
        rcases List.pairwise_cons.mp ihp with ⟨ih1, ih2⟩
        refine List.pairwise_cons.mpr ⟨?_, ih2⟩
        intro b hb
        rw [hk0]
        exact ih1 b hb
      · rw [if_neg hkk]
        have hne : k0 ≠ k' := fun he => hkk (beq_iff_eq.mpr he)
        rw [List.map_cons]
        refine List.pairwise_cons.mpr ⟨?_, ihp⟩
        intro b hb
        by_cases hbk : b = k0
        · exfalso
          rw [List.map_cons] at hb ihp
          rcases List.mem_cons.mp hb with hb | hb
          · exact hne (hbk.symm.trans hb)
          · rcases List.pairwise_cons.mp ihp with ⟨ih1, _⟩
            have h1 := ih1 b hb
            rw [hbk] at h1
            have h2 := hnotlt k' (by rw [List.map_cons]; exact List.mem_cons_self _ _)
            rw [h1] at h2
            simp at h2
        · have h1 := hnotlt b hb
          exact kLt_of_not_not hk h1 hbk

theorem pairwise_lt_nodup {kLt : κ → κ → Bool} (hk : StrictKeyOrder kLt)
    {ks : List κ} (h : ks.Pairwise (fun a b => kLt a b = true)) : ks.Nodup := by
  refine h.imp ?_
  intro a b hab
  intro he
  rw [he, hk.irrefl] at hab
  exact Bool.false_ne_true hab

theorem groupRuns_filter_of_nodup {l : List (κ × α)}
    (hnd : ((groupRuns l).map Prod.fst).Nodup) {k : κ} {g : List α}
    (h : (k, g) ∈ groupRuns l) :
    g = (l.filter (fun p => p.1 == k)).map Prod.snd := by
  induction l generalizing k g with
  | nil => cases h
  | cons p rest ih =>
    obtain ⟨k0, x⟩ := p
    rw [groupRuns_cons] at h hnd
    rcases hR : groupRuns rest with _ | ⟨⟨k', xs⟩, gs⟩ <;> rw [hR] at h hnd
    · have hrest : rest = [] := groupRuns_nil_iff.mp hR
      subst hrest
      simp only [groupCons, List.mem_singleton, Prod.mk.injEq] at h
      rw [List.filter_cons]
      have hp : ((k0, x).1 == k) = true := beq_iff_eq.mpr h.1.symm
      rw [if_pos hp]
      rw [h.2]
      rfl
    · simp only [groupCons] at h hnd
      by_cases hkk : (k0 == k') = true
      · rw [if_pos hkk] at h hnd
        have hk0 : k0 = k' := beq_iff_eq.mp hkk
        rw [List.map_cons] at hnd
        have hndrest : ((groupRuns rest).map Prod.fst).Nodup := by
          rw [hR, List.map_cons, ← hk0]
          exact hnd
        rcases List.mem_cons.mp h with h | h
        · simp only [Prod.mk.injEq] at h
          obtain ⟨hk1, hk2⟩ := h
          have hxs := ih hndrest (by rw [hR]; exact List.mem_cons_self _ _)
          rw [List.filter_cons]
          have hp : ((k0, x).1 == k) = true := beq_iff_eq.mpr (by rw [hk1])
          rw [if_pos hp, List.map_cons, hk2, hxs, hk1, hk0]
        · have hgmem : (k, g) ∈ groupRuns rest := by
            rw [hR]
            exact List.mem_cons_of_mem _ h
          have hind := ih hndrest hgmem
          rw [hind, List.filter_cons]
          have hne : ¬ ((k0, x).1 == k) = true := by
            intro habs
            have hk0k : k0 = k := beq_iff_eq.mp habs
            rcases List.nodup_cons.mp hnd with ⟨hn1, _⟩
            have hkmem : k ∈ gs.map Prod.fst := List.mem_map.mpr ⟨(k, g), h, rfl⟩
            rw [← hk0k] at hkmem
            exact hn1 hkmem
          rw [if_neg hne]
      · rw [if_neg hkk] at h hnd
        rw [List.map_cons] at hnd
        rcases List.nodup_cons.mp hnd with ⟨hn1, hn2⟩
        have hndrest : ((groupRuns rest).map Prod.fst).Nodup := by
          rw [hR]
          exact hn2
        rcases List.mem_cons.mp h with h | h
        · simp only [Prod.mk.injEq] at h
          obtain ⟨hk1, hk2⟩ := h
          rw [List.filter_cons]
          have hp : ((k0, x).1 == k) = true := beq_iff_eq.mpr hk1.symm
          rw [if_pos hp]
          have hfil : rest.filter (fun p => p.1 == k) = [] := by
            rw [List.filter_eq_nil_iff]
            intro a ha hak
            have hak' : a.1 = k0 := by
              rw [beq_iff_eq.mp hak, hk1]
            have hcov := groupRuns_covers ha
            rw [hR, hak'] at hcov
            exact hn1 hcov
          rw [hfil, hk2]
          rfl
        · have hgmem : (k, g) ∈ groupRuns rest := by
            rw [hR]
            exact h
          have hind := ih hndrest hgmem
          rw [hind, List.filter_cons]
          have hne : ¬ ((k0, x).1 == k) = true := by
            intro habs
            have hk0k : k0 = k := beq_iff_eq.mp habs
            have hkmem : k ∈ (((k', xs) :: gs).map Prod.fst) :=
              List.mem_map.mpr ⟨(k, g), h, rfl⟩
            rw [← hk0k] at hkmem
            exact hn1 hkmem
          rw [if_neg hne]

end GroupFacts

/-! ### Lemmas about `Forall₂` plumbing and `lookupLast` -/

theorem forall2_mem_left {α β : Type _} {R : α → β → Prop} :
    ∀ {l : List α} {l' : List β}, List.Forall₂ R l l' →
      ∀ {a : α}, a ∈ l → ∃ b ∈ l', R a b := by
  intro l
  induction l with
  | nil =>
    intro l' h a ha
    cases ha
  | cons x xs ih =>
    intro l' h a ha
    cases l' with
    | nil => cases h
    | cons y ys =>
      rcases List.forall₂_cons.mp h with ⟨hxy, hrest⟩
      rcases List.mem_cons.mp ha with rfl | ha
      · exact ⟨y, List.mem_cons_self _ _, hxy⟩
      · obtain ⟨b, hb, hab⟩ := ih hrest ha
        exact ⟨b, List.mem_cons_of_mem _ hb, hab⟩

theorem forall2_mem_right {α β : Type _} {R : α → β → Prop} :
    ∀ {l : List α} {l' : List β}, List.Forall₂ R l l' →
      ∀ {b : β}, b ∈ l' → ∃ a ∈ l, R a b := by
  intro l
  induction l with
  | nil =>
    intro l' h b hb
    cases h
    cases hb
  | cons x xs ih =>
    intro l' h b hb
    cases l' with
    | nil => cases hb
    | cons y ys =>
      rcases List.forall₂_cons.mp h with ⟨hxy, hrest⟩
      rcases List.mem_cons.mp hb with rfl | hb
      · exact ⟨x, List.mem_cons_self _ _, hxy⟩
      · obtain ⟨a, ha, hab⟩ := ih hrest hb
        exact ⟨a, List.mem_cons_of_mem _ ha, hab⟩

theorem lookupLast_mem {κ β : Type _} [BEq κ] [LawfulBEq κ] :
    ∀ {pairs : List (κ × β)} {k : κ} {v : β},
      lookupLast pairs k = some v → (k, v) ∈ pairs := by
  intro pairs
  induction pairs with
  | nil =>
    intro k v h
    simp [lookupLast] at h
  | cons p ps ih =>
    intro k v h
    have hstep : lookupLast (p :: ps) k = lookStep k p (lookupLast ps k) := rfl
    rw [hstep] at h
    cases hl : lookupLast ps k with
    | some w =>
      rw [hl] at h
      simp only [lookStep, Option.some.injEq] at h
      subst h
      exact List.mem_cons_of_mem _ (ih hl)
    | none =>
      rw [hl] at h
      simp only [lookStep] at h
      by_cases hpk : (p.1 == k) = true
      · rw [if_pos hpk, Option.some.injEq] at h
        have hk : p.1 = k := beq_iff_eq.mp hpk
        have : p = (k, v) := by
          rw [← hk, ← h]
        rw [← this]
        exact List.mem_cons_self _ _
      · rw [if_neg hpk] at h
        cases h

theorem lookupLast_eq_of_nodup {κ β : Type _} [BEq κ] [LawfulBEq κ] :
    ∀ {pairs : List (κ × β)}, (pairs.map Prod.fst).Nodup →
      ∀ {k : κ} {v : β}, (k, v) ∈ pairs → lookupLast pairs k = some v := by
  intro pairs
  induction pairs with
  | nil =>
    intro _ k v h
    cases h
  | cons p ps ih =>
    intro hnd k v h
    rw [List.map_cons] at hnd
    rcases List.nodup_cons.mp hnd with ⟨hn1, hn2⟩
    have hstep : lookupLast (p :: ps) k = lookStep k p (lookupLast ps k) := rfl
    rw [hstep]
    rcases List.mem_cons.mp h with h | h
    · have hk1 : p.1 = k := by rw [← h]
      have hnone : lookupLast ps k = none := by
        cases hl : lookupLast ps k with
        | none => rfl
        | some w =>
          exfalso
          have hmem := lookupLast_mem hl
          have hkm : k ∈ ps.map Prod.fst := List.mem_map.mpr ⟨(k, w), hmem, rfl⟩
          rw [hk1] at hn1
          exact hn1 hkm
      rw [hnone]
      simp only [lookStep]
      have hpk : (p.1 == k) = true := by
        rw [hk1]
        exact beq_self_eq_true k
      rw [if_pos hpk, ← h]
    · rw [ih hn2 h]
      rfl

theorem lookupLast_forall2 {κ β γ : Type _} [BEq κ] [LawfulBEq κ] {F : β → Option γ} :
    ∀ {l : List (κ × β)} {l' : List (κ × γ)},
      List.Forall₂ (fun a b => a.1 = b.1 ∧ F a.2 = some b.2) l l' →
      ∀ k, lookupLast l' k = (lookupLast l k).bind F := by
  intro l
  induction l with
  | nil =>
    intro l' h k
    cases h
    rfl
  | cons a as ih =>
    intro l' h k
    cases l' with
    | nil => cases h
    | cons b bs =>
      rcases List.forall₂_cons.mp h with ⟨⟨hfst, hF⟩, hrest⟩
      have hstep : lookupLast (b :: bs) k = lookStep k b (lookupLast bs k) := rfl
      have hstep' : lookupLast (a :: as) k = lookStep k a (lookupLast as k) := rfl
      rw [hstep, hstep', ih hrest k]
      cases hl : lookupLast as k with
      | some w =>
        have hmem := lookupLast_mem hl
        obtain ⟨b', hb', hrel⟩ := forall2_mem_left hrest hmem
        have hFw : F w = some b'.2 := hrel.2
        show lookStep k b (F w) = F w
        rw [hFw]
        rfl
      | none =>
        by_cases hbk : (b.1 == k) = true
        · have hak : (a.1 == k) = true := by rw [hfst]; exact hbk
          show lookStep k b none = (lookStep k a none).bind F
          simp only [lookStep]
          rw [if_pos hbk, if_pos hak]
          show some b.2 = F a.2
          rw [hF]
        · have hak : ¬ (a.1 == k) = true := by rw [hfst]; exact hbk
          show lookStep k b none = (lookStep k a none).bind F
          simp only [lookStep]
          rw [if_neg hbk, if_neg hak]
          rfl

example : versionKey ['1', '.', '2', '.', '0'] = some [1, 2, 0] := by decide

example : versionKey ['1', '.', '0', 'r', 'c', '1'] = none := by decide

example : verLt [1, 2] [1, 2, 0] = true := by decide

example :
    sdksByProjectList
      [mkRow 1 ['s'] ['0', '.', '9'] 1, mkRow 1 ['s'] ['1', '.', '0'] 2,
        mkRow 1 ['s'] ['0', '.', '5'] 3] =
      some [(1, [⟨['s'], ['1', '.', '0']⟩])] := by decide

/-! ### Decoration plumbing: a list against its key-decorated form -/

theorem option_beq_some {κ : Type _} [BEq κ] (a b : κ) :
    ((some a : Option κ) == some b) = (a == b) := rfl

theorem decorate_forall2 {α κ : Type _} {key : α → Option κ} {l : List α}
    {dec : List (κ × α)}
    (h : mapO (fun x => (key x).map (fun k => (k, x))) l = some dec) :
    List.Forall₂ (fun r pr => key r = some pr.1 ∧ pr.2 = r) l dec := by
  have h2 := mapO_some_forall2 h
  refine List.Forall₂.imp ?_ h2
  intro a b hab
  rcases Option.map_eq_some'.mp hab with ⟨k, hk, hpr⟩
  constructor
  · rw [← hpr]
    exact hk
  · rw [← hpr]

theorem redecorate {α κ : Type _} {key : α → Option κ} {sdec : List (κ × α)}
    (hinv : ∀ pr ∈ sdec, key pr.2 = some pr.1) :
    mapO (fun x => (key x).map (fun k => (k, x))) (sdec.map Prod.snd) = some sdec := by
  rw [mapO_map]
  have h2 := @mapO_eq_some_of_forall (κ × α) (κ × α)
    (fun pr => (key pr.2).map (fun k => (k, pr.2))) id sdec ?_
  · rw [List.map_id] at h2
    exact h2
  · intro pr hpr
    show (key pr.2).map (fun k => (k, pr.2)) = some (id pr)
    rw [hinv pr hpr]
    rfl

theorem decorate_filter {α κ : Type _} [BEq κ] {key : α → Option κ}
    {p_row : α → Bool} {k : κ}
    (hcomp : ∀ (r : α) (pr : κ × α),
      key r = some pr.1 ∧ pr.2 = r → ((pr.1 == k) = p_row r)) :
    ∀ {l : List α} {dec : List (κ × α)},
      List.Forall₂ (fun r pr => key r = some pr.1 ∧ pr.2 = r) l dec →
      (dec.filter (fun pr => pr.1 == k)).map Prod.snd = l.filter p_row := by
  intro l
  induction l with
  | nil =>
    intro dec h
    cases h
    rfl
  | cons r rs ih =>
    intro dec h
    cases dec with
    | nil => cases h
    | cons pr prs =>
      rcases List.forall₂_cons.mp h with ⟨hrel, hrest⟩
      rw [List.filter_cons, List.filter_cons, ← hcomp r pr hrel]
      by_cases hk : (pr.1 == k) = true
      · rw [if_pos hk, if_pos hk, List.map_cons, ih hrest, hrel.2]
      · rw [if_neg hk, if_neg hk, ih hrest]

theorem forall2_map_fst {κ β γ : Type _} {R : β → γ → Prop} :
    ∀ {l : List (κ × β)} {l' : List (κ × γ)},
      List.Forall₂ (fun a b => a.1 = b.1 ∧ R a.2 b.2) l l' →
      l'.map Prod.fst = l.map Prod.fst := by
  intro l
  induction l with
  | nil =>
    intro l' h
    cases h
    rfl
  | cons a as ih =>
    intro l' h
    cases l' with
    | nil => cases h
    | cons b bs =>
      rcases List.forall₂_cons.mp h with ⟨⟨hfst, _⟩, hrest⟩
      rw [List.map_cons, List.map_cons, ih hrest, hfst]

theorem forall2_ne_nil {α β : Type _} {R : α → β → Prop} {l : List α} {l' : List β}
    (h : List.Forall₂ R l l') (hne : l ≠ []) : l' ≠ [] := by
  cases l with
  | nil => exact absurd rfl hne
  | cons x xs =>
    cases l' with
    | nil => cases h
    | cons y ys => simp

/-! ### What one successful `latestEntry` computation yields -/

theorem latestEntry_parts {nm : List Char} {g : List Row} {e : SdkEntry}
    (h : latestEntry nm g = some e) :
    ∃ dec mpair, mapO (fun r => (rowVersionKey r).map (fun k => (k, r))) g = some dec ∧
      (sortPy (pairLe verLt) dec).getLast? = some mpair ∧
      mpair.2.sdkVersion = some e.version ∧ e.name = nm := by
  unfold latestEntry at h
  rcases Option.bind_eq_some.mp h with ⟨sorted2, hs2, h2⟩
  rcases Option.bind_eq_some.mp h2 with ⟨last, hlast, h3⟩
  rcases Option.map_eq_some'.mp h3 with ⟨v, hv, he⟩
  unfold sortByKey at hs2
  rcases Option.map_eq_some'.mp hs2 with ⟨dec, hdec, hsorted⟩
  rw [← hsorted, List.getLast?_map] at hlast
  rcases Option.map_eq_some'.mp hlast with ⟨mpair, hmp, hsnd⟩
  refine ⟨dec, mpair, hdec, hmp, ?_, ?_⟩
  · rw [hsnd, hv, ← he]
  · rw [← he]

theorem latestEntry_name {nm : List Char} {g : List Row} {e : SdkEntry}
    (h : latestEntry nm g = some e) : e.name = nm := by
  obtain ⟨_, _, _, _, _, hn⟩ := latestEntry_parts h
  exact hn

theorem latestEntry_spec {nm : List Char} {g : List Row} {e : SdkEntry}
    (hne : g ≠ []) (h : latestEntry nm g = some e) :
    ∃ kmax, versionKey e.version = some kmax ∧
      (∃ r ∈ g, r.sdkVersion = some e.version ∧ rowVersionKey r = some kmax) ∧
      (∀ r ∈ g, ∀ kr, rowVersionKey r = some kr → verLe kr kmax = true) ∧
      (∃ rl, (g.filter (fun r => rowVersionKey r == some kmax)).getLast? = some rl ∧
        rl.sdkVersion = some e.version) := by
  obtain ⟨dec, mpair, hdec, hmp, hver, hname⟩ := latestEntry_parts h
  have hrel := decorate_forall2 hdec
  have hdne : dec ≠ [] := forall2_ne_nil hrel hne
  obtain ⟨m, hm, hmmem, hmax⟩ :=
    sortPy_max (fun a b => pairLe_total verLt_sko a b)
      (fun a b c h1 h2 => pairLe_trans verLt_sko a b c h1 h2) dec hdne
  have hmeq : mpair = m := by
    rw [hmp] at hm
    exact Option.some.inj hm
  subst hmeq
  have hinv : ∀ pr ∈ dec, rowVersionKey pr.2 = some pr.1 ∧ pr.2 ∈ g := by
    intro pr hpr
    obtain ⟨r, hr, hkey, hsnd⟩ := forall2_mem_right hrel hpr
    constructor
    · rw [hsnd]
      exact hkey
    · rw [hsnd]
      exact hr
  have hkmax : rowVersionKey mpair.2 = some mpair.1 := (hinv mpair hmmem).1
  have hgmem : mpair.2 ∈ g := (hinv mpair hmmem).2
  have hverKey : versionKey e.version = some mpair.1 := by
    have hb : rowVersionKey mpair.2 = versionKey e.version := by
      unfold rowVersionKey
      rw [hver]
      rfl
    rw [← hb, hkmax]
  refine ⟨mpair.1, hverKey, ⟨mpair.2, hgmem, hver, hkmax⟩, ?_, ?_⟩
  · intro r hr kr hkr
    obtain ⟨pr, hpr, hk1, _⟩ := forall2_mem_left hrel hr
    rw [hkr] at hk1
    have hkpr : kr = pr.1 := Option.some.inj hk1
    have hple := hmax pr hpr
    rw [hkpr]
    exact hple
  · have htied := sortPy_last_tied (fun a b => pairLe_total verLt_sko a b) hmp
    have hfeq : dec.filter (fun y => pairLe verLt mpair y) =
        dec.filter (fun y => y.1 == mpair.1) := by
      apply List.filter_congr
      intro q hq
      by_cases hqe : q.1 = mpair.1
      · show (!(verLt q.1 mpair.1)) = (q.1 == mpair.1)
        rw [hqe, verLt_irrefl, beq_self_eq_true]
        rfl
      · show (!(verLt q.1 mpair.1)) = (q.1 == mpair.1)
        have h1 := hmax q hq
        have h2 : verLt mpair.1 q.1 = false := by
          simp only [pairLe, Bool.not_eq_true'] at h1
          exact h1
        have h3 : verLt q.1 mpair.1 = true := by
          rcases verLt_connex hqe with hc | hc
          · exact hc
          · exact absurd hc (by simp [h2])
        rw [h3]
        have h4 : (q.1 == mpair.1) = false := by
          cases hb : (q.1 == mpair.1)
          · rfl
          · exact absurd (beq_iff_eq.mp hb) hqe
        rw [h4]
        rfl
    rw [hfeq] at htied
    have hcomp : ∀ (r : Row) (pr : List Int × Row),
        rowVersionKey r = some pr.1 ∧ pr.2 = r →
        ((pr.1 == mpair.1) = (rowVersionKey r == some mpair.1)) := by
      intro r pr hpr
      rw [hpr.1]
      rfl
    have hdf := decorate_filter hcomp hrel
    refine ⟨mpair.2, ?_, hver⟩
    rw [← hdf, List.getLast?_map, htied]
    rfl

theorem entries_filter_unique :
    ∀ {groups : List (List Char × List Row)} {entries : List SdkEntry},
      List.Forall₂ (fun g e => latestEntry g.1 g.2 = some e) groups entries →
      (groups.map Prod.fst).Nodup →
      ∀ {nm : List Char} {gnm : List Row}, (nm, gnm) ∈ groups →
        ∃ e, e ∈ entries ∧ entries.filter (fun x => x.name == nm) = [e] ∧
          latestEntry nm gnm = some e := by
  intro groups
  induction groups with
  | nil =>
    intro entries h _ nm gnm hmem
    cases hmem
  | cons g gs ih =>
    intro entries h hnd nm gnm hmem
    cases entries with
    | nil => cases h
    | cons e0 es =>
      rcases List.forall₂_cons.mp h with ⟨hg0, hrest⟩
      rw [List.map_cons] at hnd
      rcases List.nodup_cons.mp hnd with ⟨hn1, hn2⟩
      rcases List.mem_cons.mp hmem with hmem | hmem
      · have hnm : g.1 = nm := by rw [← hmem]
        have hgnm : g.2 = gnm := by rw [← hmem]
        refine ⟨e0, List.mem_cons_self _ _, ?_, ?_⟩
        · rw [List.filter_cons]
          have hname : e0.name = nm := by rw [latestEntry_name hg0, hnm]
          have hp : (e0.name == nm) = true := by
            rw [hname]
            exact beq_self_eq_true nm
          rw [if_pos hp]
          have hfil : es.filter (fun x => x.name == nm) = [] := by
            rw [List.filter_eq_nil_iff]
            intro e2 he2 hbeq
            obtain ⟨g2, hg2, hg2rel⟩ := forall2_mem_right hrest he2
            have hg2n : g2.1 = e2.name := (latestEntry_name hg2rel).symm
            have hkm : nm ∈ gs.map Prod.fst := by
              refine List.mem_map.mpr ⟨g2, hg2, ?_⟩
              rw [hg2n, beq_iff_eq.mp hbeq]
            rw [← hnm] at hkm
            exact hn1 hkm
          rw [hfil]
        · rw [← hnm, ← hgnm]
          exact hg0
      · obtain ⟨e, he, hfil, hle⟩ := ih hrest hn2 hmem
        refine ⟨e, List.mem_cons_of_mem _ he, ?_, hle⟩
        rw [List.filter_cons]
        have hname : e0.name = g.1 := latestEntry_name hg0
        have hne0 : ¬ (e0.name == nm) = true := by
          intro hb
          have hnmem : nm ∈ gs.map Prod.fst := List.mem_map.mpr ⟨(nm, gnm), hmem, rfl⟩
          rw [← beq_iff_eq.mp hb, hname] at hnmem
          exact hn1 hnmem
        rw [if_neg hne0, hfil]

/-! ### What one successful `sdkListFor` computation yields -/

theorem sdkListFor_spec {rows : List Row} {entries : List SdkEntry}
    (h : sdkListFor rows = some entries) {nm : List Char}
    (hne : rows.filter (fun r => r.sdkName == some nm) ≠ []) :
    ∃ e, e ∈ entries ∧ entries.filter (fun x => x.name == nm) = [e] ∧
      latestEntry nm (rows.filter (fun r => r.sdkName == some nm)) = some e := by
  unfold sdkListFor at h
  rcases Option.bind_eq_some.mp h with ⟨sorted1, hs1, h2⟩
  rcases Option.bind_eq_some.mp h2 with ⟨groups, hgr, hmapE⟩
  unfold sortByKey at hs1
  rcases Option.map_eq_some'.mp hs1 with ⟨decN, hdecN, hsorted1⟩
  have hrelN := decorate_forall2 hdecN
  have hinv : ∀ pr ∈ sortPy (pairLe nameLt) decN, by_sdk_name pr.2 = some pr.1 := by
    intro pr hpr
    have hpr' : pr ∈ decN := mem_sortPy.mp hpr
    obtain ⟨r, _, hkey, hsnd⟩ := forall2_mem_right hrelN hpr'
    rw [hsnd]
    exact hkey
  unfold groupByRuns at hgr
  rcases Option.map_eq_some'.mp hgr with ⟨decN2, hdecN2, hgroups⟩
  have hredec := redecorate hinv
  rw [hsorted1] at hredec
  have hdeq : decN2 = sortPy (pairLe nameLt) decN := by
    rw [hredec] at hdecN2
    exact (Option.some.inj hdecN2).symm
  have hsortedP := sortPy_pairwise (fun a b => pairLe_total nameLt_sko a b)
    (fun a b c h1 h2 => pairLe_trans nameLt_sko a b c h1 h2) decN
  have hkeysP := groupRuns_keys_pairwise nameLt_sko hsortedP
  have hknd : ((groupRuns (sortPy (pairLe nameLt) decN)).map Prod.fst).Nodup :=
    pairwise_lt_nodup nameLt_sko hkeysP
  obtain ⟨r0, hr0⟩ := List.exists_mem_of_ne_nil _ hne
  rcases List.mem_filter.mp hr0 with ⟨hr0mem, hr0nm⟩
  obtain ⟨pr0, hpr0, hkey0, hsnd0⟩ := forall2_mem_left hrelN hr0mem
  have hpr0nm : pr0.1 = nm := by
    have hkey0' : r0.sdkName = some pr0.1 := hkey0
    rw [beq_iff_eq.mp hr0nm] at hkey0'
    exact (Option.some.inj hkey0').symm
  have hpr0mem : pr0 ∈ sortPy (pairLe nameLt) decN := mem_sortPy.mpr hpr0
  obtain ⟨gnm, hgnm, _⟩ := groupRuns_mem_content hpr0mem
  rw [hpr0nm] at hgnm
  have hgfil := groupRuns_filter_of_nodup hknd hgnm
  have hstab : (sortPy (pairLe nameLt) decN).filter (fun q => q.1 == nm) =
      decN.filter (fun q => q.1 == nm) := by
    apply sortPy_filter
    intro a b hpa hab
    cases hv : (b.1 == nm) with
    | false => rfl
    | true =>
      exfalso
      have hanm : a.1 = nm := beq_iff_eq.mp hpa
      have hbnm : b.1 = nm := beq_iff_eq.mp hv
      have hlt : nameLt b.1 a.1 = true := by
        cases hw : nameLt b.1 a.1 with
        | true => rfl
        | false =>
          exfalso
          have hple : pairLe nameLt a b = true := by
            show (!(nameLt b.1 a.1)) = true
            rw [hw]
            rfl
          rw [hab] at hple
          exact Bool.false_ne_true hple
      rw [hanm, hbnm, nameLt_irrefl] at hlt
      exact Bool.false_ne_true hlt
  have hcompN : ∀ (r : Row) (pr : List Char × Row),
      by_sdk_name r = some pr.1 ∧ pr.2 = r →
      ((pr.1 == nm) = (r.sdkName == some nm)) := by
    intro r pr hpr
    have hk : r.sdkName = some pr.1 := hpr.1
    rw [hk]
    rfl
  have hdfN := decorate_filter hcompN hrelN
  have hgnm_eq : gnm = rows.filter (fun r => r.sdkName == some nm) := by
    rw [hgfil, hstab, hdfN]
  have hrelE := mapO_some_forall2 hmapE
  have hndG : (groups.map Prod.fst).Nodup := by
    rw [← hgroups, hdeq]
    exact hknd
  have hgnmG : (nm, gnm) ∈ groups := by
    rw [← hgroups, hdeq]
    exact hgnm
  obtain ⟨e, hemem, hefil, hele⟩ := entries_filter_unique hrelE hndG hgnmG
  refine ⟨e, hemem, hefil, ?_⟩
  rw [← hgnm_eq]
  exact hele

/-! ### The full reduction, for one `(project.id, sdk.name)` group -/

theorem reduction_spec {data : List Row} {pg : List (Nat × List Row)}
    {sbp : List (Nat × List SdkEntry)}
    (hg : groupByRuns by_project_id data = some pg)
    (hnd : (pg.map Prod.fst).Nodup)
    (hs : sdksByProjectList data = some sbp)
    {p : Nat} {nm : List Char} (hne : groupRows data p nm ≠ []) :
    ∃ entries e, lookupLast sbp p = some entries ∧ e ∈ entries ∧
      entries.filter (fun x => x.name == nm) = [e] ∧
      latestEntry nm (groupRows data p nm) = some e := by
  unfold sdksByProjectList at hs
  rcases Option.bind_eq_some.mp hs with ⟨pg', hpg', hmapP⟩
  rw [hg] at hpg'
  have hpg'eq : pg' = pg := (Option.some.inj hpg').symm
  rw [hpg'eq] at hmapP
  unfold groupByRuns at hg
  rcases Option.map_eq_some'.mp hg with ⟨decP, hdecP, hgruns⟩
  have hrelP := decorate_forall2 hdecP
  have hrelS : List.Forall₂ (fun g ge => g.1 = ge.1 ∧ sdkListFor g.2 = some ge.2)
      pg sbp := by
    refine List.Forall₂.imp ?_ (mapO_some_forall2 hmapP)
    intro a b hab
    rcases Option.map_eq_some'.mp hab with ⟨l, hl, hb⟩
    constructor
    · rw [← hb]
    · rw [← hb]
      exact hl
  obtain ⟨r0, hr0⟩ := List.exists_mem_of_ne_nil _ hne
  rcases List.mem_filter.mp hr0 with ⟨hr0mem, hr0p⟩
  rw [Bool.and_eq_true] at hr0p
  obtain ⟨hr0proj, hr0nm⟩ := hr0p
  obtain ⟨pr0, hpr0, hkey0, hsnd0⟩ := forall2_mem_left hrelP hr0mem
  have hpr0p : pr0.1 = p := by
    have hk : r0.projectId = some pr0.1 := hkey0
    rw [beq_iff_eq.mp hr0proj] at hk
    exact (Option.some.inj hk).symm
  obtain ⟨run, hrun, _⟩ := groupRuns_mem_content hpr0
  rw [hpr0p] at hrun
  have hrunpg : (p, run) ∈ pg := by
    rw [← hgruns]
    exact hrun
  have hndP : ((groupRuns decP).map Prod.fst).Nodup := by
    rw [hgruns]
    exact hnd
  have hcompP : ∀ (r : Row) (pr : Nat × Row),
      by_project_id r = some pr.1 ∧ pr.2 = r →
      ((pr.1 == p) = (r.projectId == some p)) := by
    intro r pr hpr
    have hk : r.projectId = some pr.1 := hpr.1
    rw [hk]
    rfl
  have hdfP := decorate_filter hcompP hrelP
  have hrunfil := groupRuns_filter_of_nodup hndP hrun
  have hrun_eq : run = data.filter (fun r => r.projectId == some p) := by
    rw [hrunfil, hdfP]
  obtain ⟨ge, hge, hge1, hge2⟩ := forall2_mem_left hrelS hrunpg
  have hsnd : (sbp.map Prod.fst).Nodup := by
    rw [@forall2_map_fst Nat (List Row) (List SdkEntry)
      (fun x y => sdkListFor x = some y) pg sbp hrelS]
    exact hnd
  have hgee : ge = (p, ge.2) := by
    rw [show p = ge.1 from hge1]
  have hgepair : (p, ge.2) ∈ sbp := hgee ▸ hge
  have hlook : lookupLast sbp p = some ge.2 := lookupLast_eq_of_nodup hsnd hgepair
  have hfil_eq : run.filter (fun r => r.sdkName == some nm) = groupRows data p nm := by
    rw [hrun_eq, List.filter_filter]
    unfold groupRows
    apply List.filter_congr
    intro r _
    exact Bool.and_comm _ _
  obtain ⟨e, hemem, hefil, hele⟩ := sdkListFor_spec hge2 (by rw [hfil_eq]; exact hne)
  refine ⟨ge.2, e, hlook, hemem, hefil, ?_⟩
  rw [← hfil_eq]
  exact hele

/-! ### The reduction never reads `last_seen`; a missing `sdk.version` is fatal -/

theorem decorate_map {α κ : Type _} {key : α → Option κ} {g : α → α}
    (hkey : ∀ x, key (g x) = key x) (l : List α) :
    mapO (fun x => (key x).map (fun k => (k, x))) (l.map g) =
      (mapO (fun x => (key x).map (fun k => (k, x))) l).map
        (List.map (Prod.map id g)) := by
  rw [mapO_map]
  have h1 : ∀ x, (key (g x)).map (fun k => (k, g x)) =
      ((key x).map (fun k => (k, x))).map (Prod.map id g) := by
    intro x
    rw [hkey x]
    cases key x <;> rfl
  exact mapO_map_post h1

theorem sortByKey_map {α κ : Type _} {key : α → Option κ} {kLt : κ → κ → Bool}
    {g : α → α} (hkey : ∀ x, key (g x) = key x) (l : List α) :
    sortByKey key kLt (l.map g) = (sortByKey key kLt l).map (List.map g) := by
  unfold sortByKey
  rw [decorate_map hkey]
  cases hdec : mapO (fun x => (key x).map (fun k => (k, x))) l with
  | none => rfl
  | some dec =>
    rw [Option.map_some', Option.map_some', Option.map_some']
    rw [@sortPy_map _ (pairLe kLt) _ (pairLe kLt) (Prod.map id g) (fun a b => rfl) dec]
    rw [List.map_map, Option.map_some', List.map_map]
    rfl

theorem groupCons_map {κ α : Type _} [BEq κ] {g : α → α} (k : κ) (x : α) :
    ∀ gs : List (κ × List α),
      groupCons k (g x) (gs.map (fun gr => (gr.1, gr.2.map g))) =
        (groupCons k x gs).map (fun gr => (gr.1, gr.2.map g))
  | [] => rfl
  | (k', xs) :: gs' => by
    simp only [List.map_cons, groupCons]
    by_cases hk : (k == k') = true
    · rw [if_pos hk, if_pos hk]
      rfl
    · rw [if_neg hk, if_neg hk]
      rfl

theorem groupRuns_map {κ α : Type _} [BEq κ] {g : α → α} :
    ∀ l : List (κ × α),
      groupRuns (l.map (Prod.map id g)) =
        (groupRuns l).map (fun gr => (gr.1, gr.2.map g))
  | [] => rfl
  | (k, x) :: rest => by
    rw [List.map_cons]
    show groupCons k (g x) (groupRuns (rest.map (Prod.map id g))) = _
    rw [groupRuns_map rest]
    exact groupCons_map k x (groupRuns rest)

theorem groupByRuns_map {α κ : Type _} [BEq κ] {key : α → Option κ} {g : α → α}
    (hkey : ∀ x, key (g x) = key x) (l : List α) :
    groupByRuns key (l.map g) =
      (groupByRuns key l).map (List.map (fun gr => (gr.1, gr.2.map g))) := by
  unfold groupByRuns
  rw [decorate_map hkey]
  cases hdec : mapO (fun x => (key x).map (fun k => (k, x))) l with
  | none => rfl
  | some dec =>
    rw [Option.map_some', Option.map_some', Option.map_some', groupRuns_map]
    rfl

theorem latestEntry_map {g : Row → Row} (hver : ∀ r, (g r).sdkVersion = r.sdkVersion)
    (nm : List Char) (rows : List Row) :
    latestEntry nm (rows.map g) = latestEntry nm rows := by
  unfold latestEntry
  have hkey : ∀ r, rowVersionKey (g r) = rowVersionKey r := by
    intro r
    unfold rowVersionKey
    rw [hver]
  rw [sortByKey_map hkey]
  cases hs : sortByKey rowVersionKey verLt rows with
  | none => rfl
  | some sorted2 =>
    rw [Option.map_some', Option.some_bind, Option.some_bind, List.getLast?_map]
    cases hl : sorted2.getLast? with
    | none => rfl
    | some last =>
      rw [Option.map_some', Option.some_bind, Option.some_bind, hver]

theorem sdkListFor_map {g : Row → Row}
    (hname : ∀ r, (g r).sdkName = r.sdkName)
    (hver : ∀ r, (g r).sdkVersion = r.sdkVersion)
    (rows : List Row) : sdkListFor (rows.map g) = sdkListFor rows := by
  unfold sdkListFor
  have hkeyN : ∀ r, by_sdk_name (g r) = by_sdk_name r := hname
  rw [sortByKey_map hkeyN]
  cases hs : sortByKey by_sdk_name nameLt rows with
  | none => rfl
  | some sorted1 =>
    rw [Option.map_some', Option.some_bind, Option.some_bind, groupByRuns_map hkeyN]
    cases hg : groupByRuns by_sdk_name sorted1 with
    | none => rfl
    | some groups =>
      rw [Option.map_some', Option.some_bind, Option.some_bind, mapO_map]
      apply mapO_congr
      intro gr _
      exact latestEntry_map hver gr.1 gr.2

theorem sdksByProjectList_map {g : Row → Row}
    (hproj : ∀ r, (g r).projectId = r.projectId)
    (hname : ∀ r, (g r).sdkName = r.sdkName)
    (hver : ∀ r, (g r).sdkVersion = r.sdkVersion)
    (data : List Row) : sdksByProjectList (data.map g) = sdksByProjectList data := by
  unfold sdksByProjectList
  have hkeyP : ∀ r, by_project_id (g r) = by_project_id r := hproj
  rw [groupByRuns_map hkeyP]
  cases hg : groupByRuns by_project_id data with
  | none => rfl
  | some pg =>
    rw [Option.map_some', Option.some_bind, Option.some_bind, mapO_map]
    apply mapO_congr
    intro gr _
    rw [sdkListFor_map hname hver]

theorem sortByKey_none_of_mem {α κ : Type _} {key : α → Option κ} {kLt : κ → κ → Bool}
    {l : List α} {x : α} (hx : x ∈ l) (hk : key x = none) :
    sortByKey key kLt l = none := by
  unfold sortByKey
  rw [mapO_eq_none_of_mem hx (by rw [hk]; rfl)]
  rfl

theorem sortByKey_mem {α κ : Type _} {key : α → Option κ} {kLt : κ → κ → Bool}
    {l sorted : List α} (h : sortByKey key kLt l = some sorted)
    {x : α} (hx : x ∈ l) : x ∈ sorted := by
  unfold sortByKey at h
  rcases Option.map_eq_some'.mp h with ⟨dec, hdec, hsorted⟩
  obtain ⟨pr, hpr, _, hsnd⟩ := forall2_mem_left (decorate_forall2 hdec) hx
  rw [← hsorted, ← hsnd]
  exact List.mem_map.mpr ⟨pr, mem_sortPy.mpr hpr, rfl⟩

theorem latestEntry_none_of_mem {nm : List Char} {g : List Row} {r : Row}
    (hr : r ∈ g) (hv : r.sdkVersion = none) : latestEntry nm g = none := by
  have h1 : rowVersionKey r = none := by
    unfold rowVersionKey
    rw [hv]
    rfl
  unfold latestEntry
  rw [sortByKey_none_of_mem hr h1]
  rfl

theorem sdkListFor_none_of_mem {rows : List Row} {r : Row}
    (hr : r ∈ rows) (hv : r.sdkVersion = none) : sdkListFor rows = none := by
  unfold sdkListFor
  cases hs1 : sortByKey by_sdk_name nameLt rows with
  | none => rfl
  | some sorted1 =>
    rw [Option.some_bind]
    have hrs : r ∈ sorted1 := sortByKey_mem hs1 hr
    cases hgr : groupByRuns by_sdk_name sorted1 with
    | none => rfl
    | some groups =>
      rw [Option.some_bind]
      unfold groupByRuns at hgr
      rcases Option.map_eq_some'.mp hgr with ⟨decN2, hdecN2, hgroups⟩
      obtain ⟨pr, hpr, _, hsnd⟩ := forall2_mem_left (decorate_forall2 hdecN2) hrs
      obtain ⟨grp, hgrp, hgmem⟩ := groupRuns_mem_content hpr
      have hgG : (pr.1, grp) ∈ groups := by
        rw [← hgroups]
        exact hgrp
      have hrg : r ∈ grp := by
        rw [hsnd] at hgmem
        exact hgmem
      have hle : latestEntry pr.1 grp = none := latestEntry_none_of_mem hrg hv
      exact mapO_eq_none_of_mem hgG hle

theorem sdksByProjectList_none_of_missing_version {data : List Row} {r : Row}
    (hr : r ∈ data) (hv : r.sdkVersion = none) : sdksByProjectList data = none := by
  unfold sdksByProjectList
  cases hg : groupByRuns by_project_id data with
  | none => rfl
  | some pg =>
    rw [Option.some_bind]
    unfold groupByRuns at hg
    rcases Option.map_eq_some'.mp hg with ⟨decP, hdecP, hgruns⟩
    obtain ⟨pr, hpr, _, hsnd⟩ := forall2_mem_left (decorate_forall2 hdecP) hr
    obtain ⟨run, hrun, hrunmem⟩ := groupRuns_mem_content hpr
    have hrunpg : (pr.1, run) ∈ pg := by
      rw [← hgruns]
      exact hrun
    have hrmem : r ∈ run := by
      rw [hsnd] at hrunmem
      exact hrunmem
    have hnone : sdkListFor run = none := sdkListFor_none_of_mem hrmem hv
    have hfnone : ((sdkListFor run).map (fun l => (pr.1, l))) = none := by
      rw [hnone]
      rfl
    exact mapO_eq_none_of_mem hrunpg hfnone

/-! ### The spec's zero-padded comparison against the code's list comparison -/

theorem padTo_cons {a0 : Int} {as : List Int} {n : Nat} :
    padTo (a0 :: as) (n + 1) = a0 :: padTo as n := by
  unfold padTo
  rw [List.length_cons, Nat.succ_sub_succ]
  rfl

theorem padTo_nil {n : Nat} : padTo [] n = List.replicate n 0 := by
  unfold padTo
  simp

theorem padTo_self {a : List Int} : padTo a a.length = a := by
  unfold padTo
  rw [Nat.sub_self]
  simp

theorem specPadLt_cons {a0 b0 : Int} {as bs : List Int} :
    specPadLt (a0 :: as) (b0 :: bs) =
      (intLtB a0 b0 || (intEqB a0 b0 && specPadLt as bs)) := by
  unfold specPadLt
  rw [List.length_cons, List.length_cons,
    show max (as.length + 1) (bs.length + 1) = max as.length bs.length + 1 by omega,
    padTo_cons, padTo_cons]
  rfl

theorem specPadEq_cons {a0 b0 : Int} {as bs : List Int} :
    specPadEq (a0 :: as) (b0 :: bs) = (intEqB a0 b0 && specPadEq as bs) := by
  unfold specPadEq
  rw [List.length_cons, List.length_cons,
    show max (as.length + 1) (bs.length + 1) = max as.length bs.length + 1 by omega,
    padTo_cons, padTo_cons]
  rfl

theorem specPadLt_nil_cons {b0 : Int} {bs : List Int} :
    specPadLt [] (b0 :: bs) = (intLtB 0 b0 || (intEqB 0 b0 && specPadLt [] bs)) := by
  unfold specPadLt
  rw [List.length_nil, List.length_cons,
    show max 0 (bs.length + 1) = bs.length + 1 by omega,
    show max 0 bs.length = bs.length by omega,
    padTo_nil, padTo_nil, List.replicate_succ,
    show bs.length + 1 = (b0 :: bs).length by rw [List.length_cons],
    padTo_self, padTo_self]
  rfl

theorem specPadEq_nil_cons {b0 : Int} {bs : List Int} :
    specPadEq [] (b0 :: bs) = (intEqB 0 b0 && specPadEq [] bs) := by
  unfold specPadEq
  rw [List.length_nil, List.length_cons,
    show max 0 (bs.length + 1) = bs.length + 1 by omega,
    show max 0 bs.length = bs.length by omega,
    padTo_nil, padTo_nil, List.replicate_succ,
    show bs.length + 1 = (b0 :: bs).length by rw [List.length_cons],
    padTo_self, padTo_self]
  rfl

theorem specPadLt_cons_nil {a0 : Int} {as : List Int} :
    specPadLt (a0 :: as) [] = (intLtB a0 0 || (intEqB a0 0 && specPadLt as [])) := by
  unfold specPadLt
  rw [List.length_nil, List.length_cons,
    show max (as.length + 1) 0 = as.length + 1 by omega,
    show max as.length 0 = as.length by omega,
    padTo_nil, padTo_nil, List.replicate_succ,
    show as.length + 1 = (a0 :: as).length by rw [List.length_cons],
    padTo_self, padTo_self]
  rfl

theorem specPad_nil_total :
    ∀ bs : List Int, (∀ i ∈ bs, 0 ≤ i) →
      (specPadLt [] bs || specPadEq [] bs) = true := by
  intro bs
  induction bs with
  | nil =>
    intro _
    rfl
  | cons b0 bs' ih =>
    intro hpos
    have hb0 : 0 ≤ b0 := hpos b0 (List.mem_cons_self _ _)
    rw [specPadLt_nil_cons, specPadEq_nil_cons]
    rcases lt_or_eq_of_le hb0 with hlt | heq
    · have h1 : intLtB 0 b0 = true := by
        simp [intLtB, hlt]
      rw [h1]
      rfl
    · have h0 : intLtB 0 b0 = false := by
        simp [intLtB, ← heq]
      have h1 : intEqB 0 b0 = true := by
        simp [intEqB, ← heq]
      rw [h0, h1]
      have h2 := ih (fun i hi => hpos i (List.mem_cons_of_mem _ hi))
      rcases Bool.or_eq_true_iff.mp h2 with h | h
      · rw [h]
        rfl
      · rw [h]
        simp

theorem specPadLt_nil_right :
    ∀ as : List Int, (∀ i ∈ as, 0 ≤ i) → specPadLt as [] = false := by
  intro as
  induction as with
  | nil =>
    intro _
    rfl
  | cons a0 as' ih =>
    intro hpos
    have ha0 : 0 ≤ a0 := hpos a0 (List.mem_cons_self _ _)
    rw [specPadLt_cons_nil]
    have h0 : intLtB a0 0 = false := by
      simp [intLtB]
      omega
    rw [h0, ih (fun i hi => hpos i (List.mem_cons_of_mem _ hi))]
    simp

theorem verLt_pad_characterization :
    ∀ (a b : List Int), (∀ i ∈ a, 0 ≤ i) → (∀ i ∈ b, 0 ≤ i) →
      verLt a b =
        (specPadLt a b || (specPadEq a b && decide (a.length < b.length))) := by
  intro a
  induction a with
  | nil =>
    intro b _ hb
    cases b with
    | nil => rfl
    | cons b0 bs =>
      have hlen : decide (([] : List Int).length < (b0 :: bs).length) = true := by
        simp
      rw [hlen]
      have hLHS : verLt [] (b0 :: bs) = true := rfl
      rw [hLHS, Bool.and_true]
      exact (specPad_nil_total (b0 :: bs) hb).symm
  | cons a0 as ih =>
    intro b ha hb
    cases b with
    | nil =>
      have hlen : decide ((a0 :: as).length < ([] : List Int).length) = false := by
        simp
      rw [hlen, Bool.and_false, Bool.or_false]
      rw [specPadLt_nil_right (a0 :: as) ha]
      rfl
    | cons b0 bs =>
      have hcons : verLt (a0 :: as) (b0 :: bs) =
          (intLtB a0 b0 || (intEqB a0 b0 && verLt as bs)) := rfl
      rw [hcons, specPadLt_cons, specPadEq_cons, List.length_cons, List.length_cons,
        show decide (as.length + 1 < bs.length + 1) = decide (as.length < bs.length)
          by simp]
      by_cases hab : a0 = b0
      · subst hab
        have h0 : intLtB a0 a0 = false := intLtB_irrefl a0
        have h1 : intEqB a0 a0 = true := beq_self_eq_true a0
        rw [h0, h1]
        simp only [Bool.false_or, Bool.true_and]
        exact ih bs (fun i hi => ha i (List.mem_cons_of_mem _ hi))
          (fun i hi => hb i (List.mem_cons_of_mem _ hi))
      · have h1 : intEqB a0 b0 = false := by
          cases hv : intEqB a0 b0
          · rfl
          · exact absurd (beq_iff_eq.mp hv) hab
        rw [h1]
        simp

/-! ### Well-formed numeric version strings parse to nonnegative keys -/

theorem digitsVal_some {s : List Char} (h1 : s ≠ []) (h2 : s.all Char.isDigit = true) :
    ∃ n : Nat, digitsVal s = some n := by
  unfold digitsVal
  rw [if_pos ⟨h1, h2⟩]
  exact ⟨_, rfl⟩

theorem pyInt_digits {s : List Char} (h1 : s ≠ []) (h2 : s.all Char.isDigit = true) :
    ∃ n : Nat, pyInt s = some (n : Int) := by
  cases s with
  | nil => exact absurd rfl h1
  | cons c cs =>
    have hc : c.isDigit = true :=
      List.all_eq_true.mp h2 c (List.mem_cons_self _ _)
    have hcm : ¬ (c = '-') := by
      intro he
      rw [he] at hc
      exact absurd hc (by decide)
    have hcp : ¬ (c = '+') := by
      intro he
      rw [he] at hc
      exact absurd hc (by decide)
    obtain ⟨n, hn⟩ := digitsVal_some h1 h2
    refine ⟨n, ?_⟩
    have hstep : pyInt (c :: cs) =
        (if c = '-' then (digitsVal cs).map (fun n => -(n : Int))
         else if c = '+' then (digitsVal cs).map (fun n => (n : Int))
         else (digitsVal (c :: cs)).map (fun n => (n : Int))) := rfl
    rw [hstep, if_neg hcm, if_neg hcp, hn]
    rfl

theorem versionKey_numeric {v : List Char} (h : numericSegs v = true) :
    ∃ k, versionKey v = some k ∧ ∀ i ∈ k, 0 ≤ i := by
  unfold numericSegs at h
  unfold versionKey
  have haux : ∀ segs : List (List Char),
      segs.all (fun s => !s.isEmpty && s.all Char.isDigit) = true →
      ∃ k, mapO pyInt segs = some k ∧ ∀ i ∈ k, 0 ≤ i := by
    intro segs
    induction segs with
    | nil =>
      intro _
      exact ⟨[], rfl, by simp⟩
    | cons s ss ih =>
      intro hall
      rw [List.all_cons, Bool.and_eq_true] at hall
      obtain ⟨hs, hss⟩ := hall
      rw [Bool.and_eq_true] at hs
      obtain ⟨hne, hdig⟩ := hs
      have hne' : s ≠ [] := by
        intro he
        rw [he] at hne
        simp at hne
      obtain ⟨n, hn⟩ := pyInt_digits hne' hdig
      obtain ⟨k, hk, hkpos⟩ := ih hss
      refine ⟨(n : Int) :: k, ?_, ?_⟩
      · simp [mapO, hn, hk]
      · intro i hi
        rcases List.mem_cons.mp hi with rfl | hi
        · exact Int.natCast_nonneg n
        · exact hkpos i hi
  exact haux (splitDot v) h

/-! ### A key of the final association list always comes from a data row -/

theorem sbp_key_has_row {data : List Row} {sbp : List (Nat × List SdkEntry)}
    (hs : sdksByProjectList data = some sbp) {pid : Nat} {l : List SdkEntry}
    (hmem : lookupLast sbp pid = some l) : ∃ r ∈ data, r.projectId = some pid := by
  unfold sdksByProjectList at hs
  rcases Option.bind_eq_some.mp hs with ⟨pg, hpg, hmapP⟩
  have hrelS : List.Forall₂ (fun g ge => g.1 = ge.1 ∧ sdkListFor g.2 = some ge.2)
      pg sbp := by
    refine List.Forall₂.imp ?_ (mapO_some_forall2 hmapP)
    intro a b hab
    rcases Option.map_eq_some'.mp hab with ⟨l', hl', hb⟩
    constructor
    · rw [← hb]
    · rw [← hb]
      exact hl'
  have hpl := lookupLast_mem hmem
  obtain ⟨g, hg, hg1, _⟩ := forall2_mem_right hrelS hpl
  unfold groupByRuns at hpg
  rcases Option.map_eq_some'.mp hpg with ⟨decP, hdecP, hgruns⟩
  have hgmem : (g.1, g.2) ∈ groupRuns decP := by
    rw [hgruns]
    exact hg
  obtain ⟨x, hx⟩ := groupRuns_key_mem hgmem
  obtain ⟨r, hr, hkey, _⟩ := forall2_mem_right (decorate_forall2 hdecP) hx
  refine ⟨r, hr, ?_⟩
  have hk : r.projectId = some g.1 := hkey
  rw [hk, hg1]

/-! ### Claim theorems -/

/-- C5: for every set of requested projects and every observation sequence,
the final advisory mapping contains every requested project id as a key, and
a project with zero observations is mapped to the empty suggestion list
(`sdks_by_project.get(project.id, [])` with `map` over the default `[]`). -/
theorem c5_every_project_key {σ : Type} (suggest : SdkEntry → σ)
    (projects : List Nat) (data : List Row) (out : List (Nat × List σ))
    (h : project_upgrade_suggestions suggest projects data = some out) :
    ∀ pid ∈ projects, ∃ ss, (pid, ss) ∈ out ∧
      ((∀ r ∈ data, r.projectId ≠ some pid) → ss = []) := by
  unfold project_upgrade_suggestions at h
  rcases Option.map_eq_some'.mp h with ⟨sbp, hsbp, hout⟩
  intro pid hpid
  refine ⟨((lookupLast sbp pid).getD []).map suggest, ?_, ?_⟩
  · rw [← hout]
    exact List.mem_map.mpr ⟨pid, hpid, rfl⟩
  · intro hnone
    cases hl : lookupLast sbp pid with
    | none => rfl
    | some l =>
      obtain ⟨r, hr, hrp⟩ := sbp_key_has_row hsbp hl
      exact absurd hrp (hnone r hr)

/-- Witness for C5 at a concrete input: one requested project (id 7) with no
observations is present in the output, mapped to the empty list. -/
theorem c5_witness :
    ∃ ss : List Nat, (7, ss) ∈ [(7, ([] : List Nat))] ∧
      ((∀ r ∈ ([] : List Row), r.projectId ≠ some 7) → ss = []) :=
  c5_every_project_key (fun _ => (0 : Nat)) [7] [] [(7, [])] rfl
    7 (List.mem_singleton.mpr rfl)

/-- C6: the latest-version reduction is a deterministic pure function of its
input row sequence — two runs on the same input produce the same result (the
embedding of the Python comprehension is a function, so determinism is
definitional; this theorem records it in the claim's run-twice form). -/
theorem c6_deterministic (data : List Row) (out1 out2 : List (Nat × List SdkEntry))
    (h1 : sdksByProjectList data = some out1) (h2 : sdksByProjectList data = some out2) :
    out1 = out2 := Option.some.inj (h1.symm.trans h2)

/-- Witness for C6 at a concrete input. -/
theorem c6_witness :
    ([(1, [(⟨['s'], ['1']⟩ : SdkEntry)])] : List (Nat × List SdkEntry)) =
      [(1, [⟨['s'], ['1']⟩])] :=
  c6_deterministic [mkRow 1 ['s'] ['1'] 0] [(1, [⟨['s'], ['1']⟩])]
    [(1, [⟨['s'], ['1']⟩])] rfl rfl

/-- C8: the non-strict order `verLe` induced on version sort keys by the
comparison the reducer sorts with is a total order: reflexive, antisymmetric,
transitive, and any two keys are comparable. -/
theorem c8_total_order :
    ∀ x y z : List Int,
      verLe x x = true ∧
      (verLe x y = true → verLe y x = true → x = y) ∧
      (verLe x y = true → verLe y z = true → verLe x z = true) ∧
      (verLe x y = true ∨ verLe y x = true) := by
  intro x y z
  refine ⟨?_, ?_, ?_, ?_⟩
  · show (!(verLt x x)) = true
    rw [verLt_irrefl]
    rfl
  · intro h1 h2
    by_contra hne
    have h1' : verLt y x = false := by
      simp only [verLe, Bool.not_eq_true'] at h1
      exact h1
    have h2' : verLt x y = false := by
      simp only [verLe, Bool.not_eq_true'] at h2
      exact h2
    rcases verLt_connex hne with h | h
    · rw [h2'] at h
      exact Bool.false_ne_true h
    · rw [h1'] at h
      exact Bool.false_ne_true h
  · intro h1 h2
    exact pairLe_trans verLt_sko ((x, ()) : List Int × Unit) (y, ()) (z, ()) h1 h2
  · exact pairLe_total verLt_sko ((x, ()) : List Int × Unit) (y, ())

/-- Witness for C8 at concrete keys, discharging each hypothesis. -/
theorem c8_witness :
    verLe [1] [1] = true ∧ ([1] : List Int) = [1] ∧ verLe [1] [3] = true ∧
      (verLe [1] [2] = true ∨ verLe [2] [1] = true) :=
  ⟨(c8_total_order [1] [1] [1]).1,
   (c8_total_order [1] [1] [1]).2.1 (by decide) (by decide),
   (c8_total_order [1] [2] [3]).2.2.1 (by decide) (by decide),
   (c8_total_order [1] [2] [1]).2.2.2⟩

/-- C1 counterexample: the claim as stated quantifies over every observation
sequence, but when rows sharing a `project.id` are not contiguous (here rows
for project 1 are split around a project-2 row) the `dict(...)` constructor
keeps only the last run: the group (1, "a") is present in the input yet the
final mapping for project 1 emits no pair for it. -/
theorem c1_cex :
    sdksByProjectList
        [mkRow 1 ['a'] ['1'] 0, mkRow 2 ['b'] ['1'] 0, mkRow 1 ['c'] ['1'] 0] =
      some [(1, [⟨['a'], ['1']⟩]), (2, [⟨['b'], ['1']⟩]), (1, [⟨['c'], ['1']⟩])] ∧
    groupRows [mkRow 1 ['a'] ['1'] 0, mkRow 2 ['b'] ['1'] 0, mkRow 1 ['c'] ['1'] 0]
        1 ['a'] ≠ [] ∧
    lookupLast [(1, [(⟨['a'], ['1']⟩ : SdkEntry)]), (2, [⟨['b'], ['1']⟩]),
        (1, [⟨['c'], ['1']⟩])] 1 = some [⟨['c'], ['1']⟩] ∧
    (∀ e ∈ [(⟨['c'], ['1']⟩ : SdkEntry)], e.name ≠ ['a']) := by decide

/-- C1 (amended): for every observation sequence whose rows are contiguous by
`project.id` (each project id heads exactly one run, as guaranteed by the
query's `orderby` project) and on which the reduction succeeds, the final
mapping emits exactly one (sdk name, version) pair per (project.id, sdk.name)
group present in the input, the emitted raw version comes from an observation
of that group, and its parsed key is maximal in the group under the version
order. -/
theorem c1_amended (data : List Row) (pg : List (Nat × List Row))
    (sbp : List (Nat × List SdkEntry)) (p : Nat) (nm : List Char)
    (hg : groupByRuns by_project_id data = some pg)
    (hnd : (pg.map Prod.fst).Nodup)
    (hs : sdksByProjectList data = some sbp)
    (hne : groupRows data p nm ≠ []) :
    ∃ entries e kmax, lookupLast sbp p = some entries ∧ e ∈ entries ∧
      entries.filter (fun x => x.name == nm) = [e] ∧
      versionKey e.version = some kmax ∧
      (∃ r ∈ groupRows data p nm, r.sdkVersion = some e.version) ∧
      (∀ r ∈ groupRows data p nm, ∀ kr, rowVersionKey r = some kr →
        verLe kr kmax = true) := by
  obtain ⟨entries, e, hlook, hemem, hefil, hele⟩ := reduction_spec hg hnd hs hne
  obtain ⟨kmax, hk, ⟨r, hr, hrv, _⟩, hmax, _⟩ := latestEntry_spec hne hele
  exact ⟨entries, e, kmax, hlook, hemem, hefil, hk, ⟨r, hr, hrv⟩, hmax⟩

/-- Witness for C1 at the spec's scenario: three observations of
sentry.python with versions 0.9.0, 1.0.0, 0.9.5 reduce to exactly one entry
whose version is "1.0.0". -/
theorem c1_witness :
    sdksByProjectList
        [mkRow 1 ['s', 'e', 'n', 't', 'r', 'y', '.', 'p', 'y', 't', 'h', 'o', 'n']
          ['0', '.', '9', '.', '0'] 1,
         mkRow 1 ['s', 'e', 'n', 't', 'r', 'y', '.', 'p', 'y', 't', 'h', 'o', 'n']
          ['1', '.', '0', '.', '0'] 2,
         mkRow 1 ['s', 'e', 'n', 't', 'r', 'y', '.', 'p', 'y', 't', 'h', 'o', 'n']
          ['0', '.', '9', '.', '5'] 3] =
      some [(1, [⟨['s', 'e', 'n', 't', 'r', 'y', '.', 'p', 'y', 't', 'h', 'o', 'n'],
        ['1', '.', '0', '.', '0']⟩])] ∧
    (∃ entries e kmax,
      lookupLast [(1,
          [(⟨['s', 'e', 'n', 't', 'r', 'y', '.', 'p', 'y', 't', 'h', 'o', 'n'],
            ['1', '.', '0', '.', '0']⟩ : SdkEntry)])] 1 = some entries ∧
      e ∈ entries ∧
      entries.filter (fun x =>
        x.name == ['s', 'e', 'n', 't', 'r', 'y', '.', 'p', 'y', 't', 'h', 'o', 'n']) =
        [e] ∧
      versionKey e.version = some kmax ∧
      (∃ r ∈ groupRows
          [mkRow 1 ['s', 'e', 'n', 't', 'r', 'y', '.', 'p', 'y', 't', 'h', 'o', 'n']
            ['0', '.', '9', '.', '0'] 1,
           mkRow 1 ['s', 'e', 'n', 't', 'r', 'y', '.', 'p', 'y', 't', 'h', 'o', 'n']
            ['1', '.', '0', '.', '0'] 2,
           mkRow 1 ['s', 'e', 'n', 't', 'r', 'y', '.', 'p', 'y', 't', 'h', 'o', 'n']
            ['0', '.', '9', '.', '5'] 3]
          1 ['s', 'e', 'n', 't', 'r', 'y', '.', 'p', 'y', 't', 'h', 'o', 'n'],
        r.sdkVersion = some e.version) ∧
      (∀ r ∈ groupRows
          [mkRow 1 ['s', 'e', 'n', 't', 'r', 'y', '.', 'p', 'y', 't', 'h', 'o', 'n']
            ['0', '.', '9', '.', '0'] 1,
           mkRow 1 ['s', 'e', 'n', 't', 'r', 'y', '.', 'p', 'y', 't', 'h', 'o', 'n']
            ['1', '.', '0', '.', '0'] 2,
           mkRow 1 ['s', 'e', 'n', 't', 'r', 'y', '.', 'p', 'y', 't', 'h', 'o', 'n']
            ['0', '.', '9', '.', '5'] 3]
          1 ['s', 'e', 'n', 't', 'r', 'y', '.', 'p', 'y', 't', 'h', 'o', 'n'],
        ∀ kr, rowVersionKey r = some kr → verLe kr kmax = true)) := by
  constructor
  · decide
  · exact c1_amended _ _ _ 1 _ rfl (by decide) rfl (by decide)

/-- C2: the spec requires that version parsing never raises and that
malformed input falls back to a degraded-mode value; the code's
`[int(u) for u in v.split(".")]` has no such fallback — on the version
string "1.0.0rc1" the conversion raises `ValueError` (modelled as `none`)
and the whole reduction fails, so no degraded ParsedVersion exists at all.
The spec itself flags the `int(...)` pattern as a correctness gap, so this
is a bug of the code against the spec's stated intent. -/
theorem c2_code_raises :
    versionKey ['1', '.', '0', '.', '0', 'r', 'c', '1'] = none ∧
    sdksByProjectList
        [mkRow 1 ['s'] ['1', '.', '0', '.', '0', 'r', 'c', '1'] 0] = none := by decide

/-- C3 counterexample: Python list comparison does not zero-pad. The code
parses "1.2" and "1.2.0" to the keys [1, 2] and [1, 2, 0]; these are not
equal and the code orders the first strictly below the second, while the
spec's zero-padded comparison makes them equal — so `parse(a) < parse(b)`
does not match numeric tuple comparison with zero-padding, and
`parse("1.2") == parse("1.2.0")` fails on the code. -/
theorem c3_cex :
    versionKey ['1', '.', '2'] = some [1, 2] ∧
    versionKey ['1', '.', '2', '.', '0'] = some [1, 2, 0] ∧
    verLt [1, 2] [1, 2, 0] = true ∧
    specPadEq [1, 2] [1, 2, 0] = true ∧
    specPadLt [1, 2] [1, 2, 0] = false ∧
    ([1, 2] : List Int) ≠ [1, 2, 0] := by decide

/-- C3 (amended): for version strings whose dot-separated segments are all
nonempty ASCII-digit strings, the code's comparison agrees with the spec's
zero-padded comparison except on keys that are zero-padding-equal but of
different lengths, where the code orders the shorter strictly first:
code order = padded-less OR (padded-equal AND shorter). -/
theorem c3_amended (a b : List Char) (ka kb : List Int)
    (hna : numericSegs a = true) (hnb : numericSegs b = true)
    (hka : versionKey a = some ka) (hkb : versionKey b = some kb) :
    verLt ka kb =
      (specPadLt ka kb || (specPadEq ka kb && decide (ka.length < kb.length))) := by
  obtain ⟨k1, hk1, hpos1⟩ := versionKey_numeric hna
  obtain ⟨k2, hk2, hpos2⟩ := versionKey_numeric hnb
  rw [hka] at hk1
  rw [hkb] at hk2
  have e1 : ka = k1 := Option.some.inj hk1
  have e2 : kb = k2 := Option.some.inj hk2
  subst e1
  subst e2
  exact verLt_pad_characterization ka kb hpos1 hpos2

/-- Witness for C3 (amended) at the strings "1.2" and "1.2.0". -/
theorem c3_witness :
    numericSegs ['1', '.', '2'] = true ∧
    numericSegs ['1', '.', '2', '.', '0'] = true ∧
    verLt [1, 2] [1, 2, 0] =
      (specPadLt [1, 2] [1, 2, 0] ||
        (specPadEq [1, 2] [1, 2, 0] &&
          decide (([1, 2] : List Int).length < ([1, 2, 0] : List Int).length))) :=
  ⟨by decide, by decide,
   c3_amended ['1', '.', '2'] ['1', '.', '2', '.', '0'] [1, 2] [1, 2, 0]
     (by decide) (by decide) (by decide) (by decide)⟩

/-- C4 counterexample: two observations of the same (project, sdk) share the
maximal parsed key ("1.0" and "1.00" both parse to [1, 0]); the first comes
later by `last_seen` (5 > 3), so the claim's tie-break would emit "1.0", but
the code emits "1.00" — the last tied observation in input order; `last_seen`
is never consulted. -/
theorem c4_cex :
    rowVersionKey (mkRow 1 ['s'] ['1', '.', '0'] 5) =
      rowVersionKey (mkRow 1 ['s'] ['1', '.', '0', '0'] 3) ∧
    (mkRow 1 ['s'] ['1', '.', '0'] 5).lastSeen = some 5 ∧
    (mkRow 1 ['s'] ['1', '.', '0', '0'] 3).lastSeen = some 3 ∧
    sdksByProjectList
        [mkRow 1 ['s'] ['1', '.', '0'] 5, mkRow 1 ['s'] ['1', '.', '0', '0'] 3] =
      some [(1, [⟨['s'], ['1', '.', '0', '0']⟩])] ∧
    (['1', '.', '0', '0'] : List Char) ≠ ['1', '.', '0'] := by decide

/-- C4 (amended): the `last_seen` timestamp never influences which
observation is selected — the reduction's output is invariant under an
arbitrary reassignment of every row's `last_seen` field (ties between equal
maximal parsed versions are instead broken by input position; see the C10
theorem). -/
theorem c4_amended (data : List Row) (t : Row → Option Nat) :
    sdksByProjectList (data.map (setLastSeen t)) = sdksByProjectList data :=
  @sdksByProjectList_map (setLastSeen t) (fun _ => rfl) (fun _ => rfl) (fun _ => rfl) data

/-- C7 counterexample: a record missing `last_seen` is not dropped — the
reduction never reads `last_seen`, so the record participates and here its
version "2.0" wins; the claim's behaviour (drop it) would have produced
"1.0". No dropped-record count exists anywhere in the code. -/
theorem c7_cex :
    (Row.mk (some 1) (some ['s']) (some ['2', '.', '0']) none) ∈
        [mkRow 1 ['s'] ['1', '.', '0'] 10,
         Row.mk (some 1) (some ['s']) (some ['2', '.', '0']) none] ∧
    sdksByProjectList
        [mkRow 1 ['s'] ['1', '.', '0'] 10,
         Row.mk (some 1) (some ['s']) (some ['2', '.', '0']) none] =
      some [(1, [⟨['s'], ['2', '.', '0']⟩])] ∧
    sdksByProjectList [mkRow 1 ['s'] ['1', '.', '0'] 10] =
      some [(1, [⟨['s'], ['1', '.', '0']⟩])] := by decide

/-- C7 (amended): a record missing `last_seen` is used like any other (the
field is never read; see the C4 theorem), while a record missing
`sdk.version` is fatal to the whole reduction — the `KeyError` aborts the
request rather than dropping the record, and no count of dropped records is
reported. -/
theorem c7_amended (data : List Row) (r : Row) (hr : r ∈ data)
    (hv : r.sdkVersion = none) : sdksByProjectList data = none :=
  sdksByProjectList_none_of_missing_version hr hv

/-- Witness for C7 (amended): one record lacking `sdk.version` makes the
whole reduction fail. -/
theorem c7_witness :
    (Row.mk (some 1) (some ['s']) none (some 0)) ∈
        [Row.mk (some 1) (some ['s']) none (some 0)] ∧
    sdksByProjectList [Row.mk (some 1) (some ['s']) none (some 0)] = none :=
  ⟨by decide,
   c7_amended [Row.mk (some 1) (some ['s']) none (some 0)]
     (Row.mk (some 1) (some ['s']) none (some 0)) (by decide) rfl⟩

/-- C9: the per-project grouping is by contiguous runs, so for any input the
final mapping's value for a project id is exactly the SDK list computed from
the *last* contiguous run of rows with that id (`dict` keeps the last
binding); observations in earlier runs of the same id are silently
discarded. -/
theorem c9_last_run_wins (data : List Row) (pg : List (Nat × List Row))
    (sbp : List (Nat × List SdkEntry))
    (hg : groupByRuns by_project_id data = some pg)
    (hs : sdksByProjectList data = some sbp) (pid : Nat) :
    lookupLast sbp pid = (lookupLast pg pid).bind sdkListFor := by
  unfold sdksByProjectList at hs
  rcases Option.bind_eq_some.mp hs with ⟨pg', hpg', hmapP⟩
  rw [hg] at hpg'
  have hpg'eq : pg' = pg := (Option.some.inj hpg').symm
  rw [hpg'eq] at hmapP
  have hrelS : List.Forall₂ (fun g ge => g.1 = ge.1 ∧ sdkListFor g.2 = some ge.2)
      pg sbp := by
    refine List.Forall₂.imp ?_ (mapO_some_forall2 hmapP)
    intro a b hab
    rcases Option.map_eq_some'.mp hab with ⟨l', hl', hb⟩
    constructor
    · rw [← hb]
    · rw [← hb]
      exact hl'
  exact lookupLast_forall2 hrelS pid

/-- Witness for C9: project 1's rows are split into two runs around a
project-2 row; the mapping's value for project 1 is the list computed from
the last run only (the row named "c"), discarding the earlier run. -/
theorem c9_witness :
    lookupLast [(1, [(⟨['a'], ['1']⟩ : SdkEntry)]), (2, [⟨['b'], ['1']⟩]),
        (1, [⟨['c'], ['1']⟩])] 1 =
      (lookupLast [(1, [mkRow 1 ['a'] ['1'] 0]), (2, [mkRow 2 ['b'] ['1'] 0]),
        (1, [mkRow 1 ['c'] ['1'] 0])] 1).bind sdkListFor ∧
    lookupLast [(1, [mkRow 1 ['a'] ['1'] 0]), (2, [mkRow 2 ['b'] ['1'] 0]),
        (1, [mkRow 1 ['c'] ['1'] 0])] 1 = some [mkRow 1 ['c'] ['1'] 0] :=
  ⟨c9_last_run_wins
     [mkRow 1 ['a'] ['1'] 0, mkRow 2 ['b'] ['1'] 0, mkRow 1 ['c'] ['1'] 0]
     [(1, [mkRow 1 ['a'] ['1'] 0]), (2, [mkRow 2 ['b'] ['1'] 0]),
       (1, [mkRow 1 ['c'] ['1'] 0])]
     [(1, [⟨['a'], ['1']⟩]), (2, [⟨['b'], ['1']⟩]), (1, [⟨['c'], ['1']⟩])]
     rfl rfl 1,
   by decide⟩

/-- C10: when several observations of a (project, sdk) group have equal
numeric component keys, the code's stable sort followed by `.pop()` selects
the observation occurring *last* in the group's input order among those tied
at the maximal key: the emitted raw version string is that of the last
element of the group filtered to the maximal key (the `last_seen` timestamp
never enters; see the C4 theorem for its irrelevance). -/
theorem c10_tie_last_in_input (data : List Row) (pg : List (Nat × List Row))
    (sbp : List (Nat × List SdkEntry)) (p : Nat) (nm : List Char)
    (hg : groupByRuns by_project_id data = some pg)
    (hnd : (pg.map Prod.fst).Nodup)
    (hs : sdksByProjectList data = some sbp)
    (hne : groupRows data p nm ≠ []) :
    ∃ entries e kmax rl, lookupLast sbp p = some entries ∧ e ∈ entries ∧
      e.name = nm ∧ versionKey e.version = some kmax ∧
      ((groupRows data p nm).filter
        (fun r => rowVersionKey r == some kmax)).getLast? = some rl ∧
      rl.sdkVersion = some e.version := by
  obtain ⟨entries, e, hlook, hemem, hefil, hele⟩ := reduction_spec hg hnd hs hne
  have hname := latestEntry_name hele
  obtain ⟨kmax, hk, _, _, rl, hrl, hrlv⟩ := latestEntry_spec hne hele
  exact ⟨entries, e, kmax, rl, hlook, hemem, hname, hk, hrl, hrlv⟩

/-- Witness for C10: two tied observations "1.0" then "1.00"; the selected
entry carries the raw string of the later one, "1.00". -/
theorem c10_witness :
    sdksByProjectList
        [mkRow 1 ['s'] ['1', '.', '0'] 9, mkRow 1 ['s'] ['1', '.', '0', '0'] 1] =
      some [(1, [⟨['s'], ['1', '.', '0', '0']⟩])] ∧
    (∃ entries e kmax rl,
      lookupLast [(1, [(⟨['s'], ['1', '.', '0', '0']⟩ : SdkEntry)])] 1 = some entries ∧
      e ∈ entries ∧ e.name = ['s'] ∧ versionKey e.version = some kmax ∧
      ((groupRows [mkRow 1 ['s'] ['1', '.', '0'] 9, mkRow 1 ['s'] ['1', '.', '0', '0'] 1]
          1 ['s']).filter (fun r => rowVersionKey r == some kmax)).getLast? = some rl ∧
      rl.sdkVersion = some e.version) := by
  constructor
  · decide
  · exact c10_tie_last_in_input _ _ _ 1 ['s'] rfl (by decide) rfl (by decide)
